import Mathlib

/-!
# Verification of the FlowMap-r LUT mapping engine

A shallow embedding of `flowmap-r.py`: depth-oriented K-LUT technology
mapping (FlowMap labeling over enumerated set-minimal K-feasible cuts)
followed by a depth-preserving area-flow recovery pass and LUT-cover
construction.

Modelling conventions:
* Python `dict`s (which preserve insertion order) become association
  lists `List (String × α)`; fresh-key assignment appends at the end and
  lookup takes the first match (keys are unique in every dict the
  program builds).
* Python `set`/`frozenset` of node names become `Finset String`; where
  the program iterates a set to build an order-insensitive value
  (max, sum in a commutative monoid, or a list that is sorted before
  use) we iterate the sorted element list.
* Python floats become exact fractions (`Frac`); every arithmetic step
  the program performs on the inputs considered here is exact.
* Raised exceptions become `Except MapError`; the Kahn worklist loop and
  the cover DFS take explicit fuel bounded by the graph size, which
  suffices for every duplicate-free key list.
-/

set_option maxRecDepth 8000
set_option synthInstance.maxSize 1000

namespace FlowMapR

abbrev Node := String
abbrev Graph := List (Node × List Node)
abbrev Cut := Finset Node

/-- Errors of the engine: `ValueError("K must be >= 1")`,
`ValueError("Graph is not a DAG")`, `RuntimeError("No K-feasible cuts for v")`,
a Python `KeyError` on a missing dict key, a `ValueError` from `min([])`,
and fuel exhaustion (unreachable on duplicate-free key lists). -/
inductive MapError where
  | invalidK
  | cycleDetected
  | noFeasibleCut (v : Node)
  | keyError
  | emptyValues
  | fuelOut
deriving DecidableEq, Repr

instance {ε α : Type} [DecidableEq ε] [DecidableEq α] : DecidableEq (Except ε α) := fun x y =>
  match x, y with
  | .error a, .error b =>
      if h : a = b then .isTrue (by rw [h]) else .isFalse (by simp [h])
  | .error _, .ok _ => .isFalse (by simp)
  | .ok _, .error _ => .isFalse (by simp)
  | .ok a, .ok b =>
      if h : a = b then .isTrue (by rw [h]) else .isFalse (by simp [h])

/-- Association-list lookup, first match wins (Python dict lookup). -/
def alookup (k : Node) : List (Node × α) → Option α
  | [] => none
  | (k', x) :: rest => if k' = k then some x else alookup k rest

/-- Update the (first) entry at key `k` in place (Python `d[k] = f d[k]`). -/
def aupdate (k : Node) (f : α → α) : List (Node × α) → List (Node × α)
  | [] => []
  | (k', x) :: rest =>
      if k' = k then (k', f x) :: rest else (k', x) :: aupdate k f rest

/-- `graph[v]` for keys; nodes that are not keys have no fanin list. -/
def finsOf (g : Graph) (v : Node) : List Node := (alookup v g).getD []

/-- The `fanouts` defaultdict built by `topo_sort`: one entry per
occurrence of `u` in a fanin list, in graph-key order. -/
def fanoutsOf (g : Graph) (u : Node) : List Node :=
  g.flatMap (fun p => List.replicate (p.2.count u) p.1)

/-- `primary_inputs(graph)`: the keys with an empty fanin list. -/
def PIlist (g : Graph) : List Node :=
  (g.filter (fun p => p.2.isEmpty)).map Prod.fst

/-- `detect_outputs(graph)`: keys appearing in no fanin list, key order. -/
def detect_outputs (g : Graph) : List Node :=
  let allFins := g.flatMap Prod.snd
  (g.map Prod.fst).filter (fun n => decide (n ∉ allFins))

/-- The inner `for w in fanouts[u]` loop of Kahn's algorithm: decrement
the indegree, enqueue at zero. -/
def processFanouts : (Node → Int) → List Node → List Node → (Node → Int) × List Node
  | indeg, q, [] => (indeg, q)
  | indeg, q, w :: ws =>
      let d := indeg w - 1
      let indeg' : Node → Int := fun x => if x = w then d else indeg x
      let q' := if d = 0 then q ++ [w] else q
      processFanouts indeg' q' ws

/-- The worklist loop of Kahn's algorithm (FIFO deque), with fuel. -/
def topoLoop (g : Graph) : ℕ → (Node → Int) → List Node → List Node → List Node
  | _, _, [], order => order
  | 0, _, _ :: _, order => order
  | fuel + 1, indeg, u :: q, order =>
      let p := processFanouts indeg q (fanoutsOf g u)
      topoLoop g fuel p.1 p.2 (order ++ [u])

/-- `topo_sort(graph)`: Kahn's algorithm; error when not all nodes are
consumed (`ValueError("Graph is not a DAG")`). -/
def topo_sort (g : Graph) : Except MapError (List Node) :=
  let indeg0 : Node → Int := fun n => ((finsOf g n).length : Int)
  let q0 := (g.map Prod.fst).filter (fun n => (finsOf g n).isEmpty)
  let order := topoLoop g g.length indeg0 q0 []
  if order.length = g.length then .ok order else .error .cycleDetected

/-- Strict code-point comparison of character lists (Python string `<`). -/
def charListLt : List Char → List Char → Bool
  | _, [] => false
  | [], _ :: _ => true
  | a :: as, b :: bs =>
      if a.toNat < b.toNat then true
      else if b.toNat < a.toNat then false
      else charListLt as bs

/-- Python string `<` on node names. -/
def nodeLt (a b : Node) : Bool := charListLt a.data b.data

/-- Python string `<=` on node names. -/
def nodeLe (a b : Node) : Bool := nodeLt a b || decide (a = b)

/-- The node order as a relation, for sortedness reasoning. -/
def NodeR (a b : Node) : Prop := nodeLe a b = true

instance : DecidableRel NodeR := fun a b => by unfold NodeR; infer_instance

theorem charListLt_irrefl (l : List Char) : charListLt l l = false := by
  induction l with
  | nil => rfl
  | cons a as ih => simp [charListLt, ih]

theorem charListLt_asymm {l₁ l₂ : List Char} (h₁ : charListLt l₁ l₂ = true) :
    charListLt l₂ l₁ = false := by
  induction l₁ generalizing l₂ with
  | nil => cases l₂ with
    | nil => simpa [charListLt] using h₁
    | cons b bs => simp [charListLt]
  | cons a as ih =>
    cases l₂ with
    | nil => simp [charListLt] at h₁
    | cons b bs =>
      by_cases hab : a.toNat < b.toNat
      · simp [charListLt, hab, Nat.lt_asymm hab, Nat.ne_of_gt hab]
      · by_cases hba : b.toNat < a.toNat
        · simp [charListLt, hab, hba] at h₁
        · simp [charListLt, hab, hba] at h₁ ⊢
          exact ih h₁

theorem charListLt_trans {l₁ l₂ l₃ : List Char} (h₁ : charListLt l₁ l₂ = true)
    (h₂ : charListLt l₂ l₃ = true) : charListLt l₁ l₃ = true := by
  induction l₁ generalizing l₂ l₃ with
  | nil =>
    cases l₃ with
    | nil =>
      cases l₂ with
      | nil => simpa [charListLt] using h₁
      | cons b bs => simp [charListLt] at h₂
    | cons c cs => simp [charListLt]
  | cons a as ih =>
    cases l₂ with
    | nil => simp [charListLt] at h₁
    | cons b bs =>
      cases l₃ with
      | nil => simp [charListLt] at h₂
      | cons c cs =>
        by_cases hab : a.toNat < b.toNat
        · by_cases hbc : b.toNat < c.toNat
          · simp [charListLt, Nat.lt_trans hab hbc]
          · by_cases hcb : c.toNat < b.toNat
            · simp [charListLt, hbc, hcb] at h₂
            · have hbc' : b.toNat = c.toNat := Nat.le_antisymm (Nat.le_of_not_lt hcb) (Nat.le_of_not_lt hbc)
              simp [charListLt, hbc' ▸ hab]
        · by_cases hba : b.toNat < a.toNat
          · simp [charListLt, hab, hba] at h₁
          · have hab' : a.toNat = b.toNat := Nat.le_antisymm (Nat.le_of_not_lt hba) (Nat.le_of_not_lt hab)
            simp [charListLt, hab, hba] at h₁
            by_cases hbc : b.toNat < c.toNat
            · simp [charListLt, hab' ▸ hbc]
            · by_cases hcb : c.toNat < b.toNat
              · simp [charListLt, hbc, hcb] at h₂
              · simp [charListLt, hbc, hcb] at h₂
                simp [charListLt, hab' ▸ hbc, hab' ▸ hcb]
                exact ih h₁ h₂

theorem charListLt_total {l₁ l₂ : List Char} (h₁ : charListLt l₁ l₂ = false)
    (h₂ : charListLt l₂ l₁ = false) : l₁ = l₂ := by
  induction l₁ generalizing l₂ with
  | nil => cases l₂ with
    | nil => rfl
    | cons b bs => simp [charListLt] at h₁
  | cons a as ih =>
    cases l₂ with
    | nil => simp [charListLt] at h₂
    | cons b bs =>
      by_cases hab : a.toNat < b.toNat
      · simp [charListLt, hab] at h₁
      · by_cases hba : b.toNat < a.toNat
        · simp [charListLt, hba] at h₂
        · have hab' : a.toNat = b.toNat := Nat.le_antisymm (Nat.le_of_not_lt hba) (Nat.le_of_not_lt hab)
          have ha : a = b := Char.eq_of_val_eq (UInt32.ext hab')
          simp [charListLt, hab, hba] at h₁ h₂
          rw [ha, ih h₁ h₂]

instance : IsTrans Node NodeR where
  trans := by
    intro a b c hab hbc
    unfold NodeR nodeLe at hab hbc ⊢
    rcases Bool.or_eq_true_iff.mp hab with h₁ | h₁
    · rcases Bool.or_eq_true_iff.mp hbc with h₂ | h₂
      · exact Bool.or_eq_true_iff.mpr (Or.inl (charListLt_trans h₁ h₂))
      · exact Bool.or_eq_true_iff.mpr (Or.inl ((of_decide_eq_true h₂) ▸ h₁))
    · exact (of_decide_eq_true h₁) ▸ hbc

instance : IsAntisymm Node NodeR where
  antisymm := by
    intro a b hab hba
    unfold NodeR nodeLe at hab hba
    rcases Bool.or_eq_true_iff.mp hab with h₁ | h₁
    · rcases Bool.or_eq_true_iff.mp hba with h₂ | h₂
      · exact absurd h₂ (by simp [nodeLt, charListLt_asymm (by simpa [nodeLt] using h₁)])
      · exact (of_decide_eq_true h₂).symm
    · exact of_decide_eq_true h₁

instance : IsTotal Node NodeR where
  total := by
    intro a b
    unfold NodeR nodeLe
    by_cases h₁ : nodeLt a b = true
    · exact Or.inl (Bool.or_eq_true_iff.mpr (Or.inl h₁))
    · by_cases h₂ : nodeLt b a = true
      · exact Or.inr (Bool.or_eq_true_iff.mpr (Or.inl h₂))
      · refine Or.inl (Bool.or_eq_true_iff.mpr (Or.inr ?_))
        have : a.data = b.data :=
          charListLt_total (Bool.not_eq_true _ ▸ h₁) (Bool.not_eq_true _ ▸ h₂)
        exact decide_eq_true (by cases a; cases b; simp_all)

/-- `sorted(C)` for a Python set of node names: the ascending element
list (structural insertion sort, so that it evaluates by `decide`). -/
def sortedNodes (C : Cut) : List Node :=
  Quotient.liftOn C.val (fun l => l.insertionSort NodeR) (fun a b h =>
    List.eq_of_perm_of_sorted
      ((a.perm_insertionSort NodeR).trans (h.trans (b.perm_insertionSort NodeR).symm))
      (List.sorted_insertionSort NodeR a) (List.sorted_insertionSort NodeR b))

/-- Keep-first deduplication of a cut list. -/
def dedupFirstAux (seen : List Cut) : List Cut → List Cut
  | [] => []
  | c :: rest =>
      if c ∈ seen then dedupFirstAux seen rest
      else c :: dedupFirstAux (c :: seen) rest

def dedupFirst (l : List Cut) : List Cut := dedupFirstAux [] l

/-- Candidate `c` at index `i` is dominated when another candidate is a
subset of it (a strict subset anywhere, or an equal set earlier). -/
def isDominated (fs : List (ℕ × Cut)) (i : ℕ) (c : Cut) : Bool :=
  fs.any (fun jd =>
    decide (jd.1 ≠ i) && decide (jd.2 ⊆ c) &&
      (decide (jd.2 ≠ c) || decide (jd.1 < i)))

/-- `minimalize_cuts`: keep only set-minimal cuts, remove duplicates,
preserving first-occurrence order. -/
def minimalize_cuts (cuts : List Cut) : List Cut :=
  let fs := cuts.enum
  let keep := (fs.filter (fun ic => !isDominated fs ic.1 ic.2)).map Prod.snd
  dedupFirst keep

/-- `itertools.product` over a list of pools (rightmost varies fastest). -/
def listProd : List (List Cut) → List (List Cut)
  | [] => [[]]
  | p :: ps => p.flatMap (fun x => (listProd ps).map (fun ys => x :: ys))

/-- Python tuple `<=` on lists of strings (lexicographic, shorter prefix
first). -/
def tupleLe : List Node → List Node → Bool
  | [], _ => true
  | _ :: _, [] => false
  | a :: as, b :: bs => if nodeLt a b then true else if a = b then tupleLe as bs else false

/-- The key `(len(s), tuple(sorted(s)))` comparison used by the
`cut_limit` truncation sort. -/
def cutKeyLe (s t : Cut) : Bool :=
  decide (s.card < t.card) ||
    (decide (s.card = t.card) && tupleLe (sortedNodes s) (sortedNodes t))

/-- Stable insertion into a sorted list (equal keys keep earlier items
first). -/
def insertLe (le : α → α → Bool) (x : α) : List α → List α
  | [] => [x]
  | y :: ys => if le y x then y :: insertLe le x ys else x :: y :: ys

/-- Stable sort by a total `Bool` comparison (Python `list.sort(key=...)`). -/
def sortByLe (le : α → α → Bool) (l : List α) : List α :=
  l.foldl (fun acc x => insertLe le x acc) []

/-- Look up every key of a list in a dict, failing on the first miss. -/
def lookups (m : List (Node × α)) : List Node → Option (List α)
  | [] => some []
  | k :: ks =>
      match alookup k m, lookups m ks with
      | some x, some xs => some (x :: xs)
      | _, _ => none

/-- The per-node candidate construction of `enumerate_minimal_kcuts`:
Cartesian product of fanin cut sets, the trivial fanin cut, set-minimality
pruning, optional `cut_limit` truncation. -/
def enumCand (g : Graph) (K : ℕ) (cutLimit : Option ℕ)
    (acc : List (Node × List Cut)) (v : Node) : Except MapError (List Cut) :=
  let fins := finsOf g v
  match lookups acc fins with
  | none => .error .keyError
  | some pools =>
      let cand := (listProd pools).filterMap (fun combo =>
        let U := combo.foldl (· ∪ ·) ∅
        if U.card ≤ K then some U else none)
      let triv : Cut := fins.toFinset
      let cand := if triv.card ≤ K then cand ++ [triv] else cand
      let cand := minimalize_cuts cand
      let cand := match cutLimit with
        | some L => if cand.length > L then (sortByLe cutKeyLe cand).take L else cand
        | none => cand
      .ok cand

/-- The topological traversal of `enumerate_minimal_kcuts`. -/
def enumLoop (g : Graph) (K : ℕ) (cutLimit : Option ℕ) :
    List Node → List (Node × List Cut) → Except MapError (List (Node × List Cut))
  | [], acc => .ok acc
  | v :: rest, acc =>
      if v ∈ PIlist g then enumLoop g K cutLimit rest (acc ++ [(v, [{v}])])
      else match enumCand g K cutLimit acc v with
        | .error e => .error e
        | .ok cand => enumLoop g K cutLimit rest (acc ++ [(v, cand)])

/-- `enumerate_minimal_kcuts(graph, K, cut_limit)`. -/
def enumerate_minimal_kcuts (g : Graph) (K : ℕ) (cutLimit : Option ℕ) :
    Except MapError (List (Node × List Cut)) :=
  if K < 1 then .error .invalidK
  else match topo_sort g with
    | .error e => .error e
    | .ok topo => enumLoop g K cutLimit topo []

/-- `1 + max(labels[u] for u in C) if C else 1`. -/
def cutDepthOf (labels : List (Node × ℕ)) (C : Cut) : Except MapError ℕ :=
  if C = ∅ then .ok 1
  else match lookups labels (sortedNodes C) with
    | none => .error .keyError
    | some vals => .ok (1 + vals.foldl max 0)

/-- The per-cut depth loop of `flowmap_labels`: pair every cut of a node
with its depth via that cut. -/
def depthsOf (labels : List (Node × ℕ)) : List Cut → Except MapError (List (Cut × ℕ))
  | [] => .ok []
  | C :: rest =>
      match cutDepthOf labels C with
      | .error e => .error e
      | .ok d =>
          match depthsOf labels rest with
          | .error e => .error e
          | .ok ds => .ok ((C, d) :: ds)

/-- The labeling loop of `flowmap_labels` over the topological order. -/
def labelLoop (g : Graph) (ncuts : List (Node × List Cut)) :
    List Node → List (Node × ℕ) → List (Node × List (Cut × ℕ)) →
    Except MapError (List (Node × ℕ) × List (Node × List (Cut × ℕ)))
  | [], labels, cds => .ok (labels, cds)
  | v :: rest, labels, cds =>
      if v ∈ PIlist g then
        labelLoop g ncuts rest (labels ++ [(v, 0)])
          (aupdate v (fun l => l ++ [({v}, 0)]) cds)
      else match alookup v ncuts with
        | none => .error .keyError
        | some cuts =>
            match depthsOf labels cuts with
            | .error e => .error e
            | .ok ds =>
                match ds.map Prod.snd with
                | [] => .error (.noFeasibleCut v)
                | d0 :: drest =>
                    labelLoop g ncuts rest (labels ++ [(v, drest.foldl min d0)])
                      (aupdate v (fun l => l ++ ds) cds)

/-- `flowmap_labels(graph, K, node_cuts)`: depth labels per the FlowMap
recurrence over the given (or freshly enumerated) cut sets. -/
def flowmap_labels (g : Graph) (K : ℕ) (ncutsIn : Option (List (Node × List Cut))) :
    Except MapError
      (List (Node × ℕ) × List (Node × List Cut) × List (Node × List (Cut × ℕ))) :=
  match (match ncutsIn with
         | some nc => Except.ok nc
         | none => enumerate_minimal_kcuts g K none) with
  | .error e => .error e
  | .ok ncuts =>
      match topo_sort g with
      | .error e => .error e
      | .ok topo =>
          match labelLoop g ncuts topo [] (g.map (fun p => (p.1, ([] : List (Cut × ℕ))))) with
          | .error e => .error e
          | .ok (labels, cds) => .ok (labels, ncuts, cds)

/-- `compute_refcounts` as a function on nodes: `max(1, len(fanouts[n]))`. -/
def refcountFun (g : Graph) : Node → ℕ := fun n => max 1 (fanoutsOf g n).length

/-- `compute_refcounts(graph)` (runs `topo_sort` first, so it can fail). -/
def compute_refcounts (g : Graph) : Except MapError (Node → ℕ) :=
  match topo_sort g with
  | .error e => .error e
  | .ok _ => .ok (refcountFun g)

/-- Exact rational arithmetic for the area-flow costs (the Python
program uses floats; on the inputs treated here every float operation it
performs — additions and divisions by small integers — is exact, and
comparisons of exact values agree with rational comparison by
cross-multiplication).  Denominators are always positive by
construction. -/
structure Frac where
  num : Int
  den : ℕ
deriving DecidableEq, Repr

/-- Addition of area-flow costs. -/
def Frac.add (a b : Frac) : Frac := ⟨a.num * b.den + b.num * a.den, a.den * b.den⟩

/-- Division of an area-flow cost by a (positive) refcount. -/
def Frac.divNat (a : Frac) (n : ℕ) : Frac := ⟨a.num, a.den * n⟩

/-- Strict `<` on area-flow costs (cross-multiplication). -/
def Frac.lt (a b : Frac) : Bool := decide (a.num * b.den < b.num * a.den)

/-- Value equality of area-flow costs (cross-multiplication). -/
def Frac.beq (a b : Frac) : Bool := decide (a.num * b.den = b.num * a.den)

/-- The `area_flow[u]/refcnt[u]` terms of a cut's cost, failing on any
node without a recorded area flow. -/
def costTerms (af : List (Node × Frac)) (refcnt : Node → ℕ) : List Node → Option (List Frac)
  | [] => some []
  | u :: us =>
      match alookup u af, costTerms af refcnt us with
      | some a, some ts => some (a.divNat (refcnt u) :: ts)
      | _, _ => none

/-- `cost = 1.0 + sum(area_flow[u]/refcnt[u] for u in C if u not in PIs)`
(running left-to-right accumulation starting from `1.0`, as in the
source's `cost += ...` loop). -/
def cutCost (g : Graph) (af : List (Node × Frac)) (refcnt : Node → ℕ) (C : Cut) :
    Except MapError Frac :=
  match costTerms af refcnt ((sortedNodes C).filter (fun u => decide (u ∉ PIlist g))) with
  | none => .error .keyError
  | some terms => .ok (terms.foldl Frac.add ⟨1, 1⟩)

/-- Lookup in the per-node cut-depth table keyed by `frozenset` cuts. -/
def clookup (C : Cut) : List (Cut × ℕ) → Option ℕ
  | [] => none
  | (D, d) :: rest => if D = C then some d else clookup C rest

/-- One iteration of the admissible-cut scan of `area_recovery`: look up
the cut's recorded depth, apply the depth-preserving filter
(`if d > labels[v]: continue`), and keep the cut on a strictly smaller
cost. -/
def pickStep (g : Graph) (labels : List (Node × ℕ)) (v : Node)
    (cdv : List (Cut × ℕ)) (af : List (Node × Frac)) (refcnt : Node → ℕ)
    (best : Option (Frac × Cut)) (C : Cut) : Except MapError (Option (Frac × Cut)) :=
  match clookup C cdv with
  | none => .error .keyError
  | some d =>
      match alookup v labels with
      | none => .error .keyError
      | some lv =>
          if lv < d then .ok best
          else match cutCost g af refcnt C with
            | .error e => .error e
            | .ok cost =>
                match best with
                | none => .ok (some (cost, C))
                | some (bc, bC) =>
                    if Frac.lt cost bc then .ok (some (cost, C)) else .ok (some (bc, bC))

/-- The admissible-cut scan of `area_recovery`: depth-preserving filter,
then strict-improvement minimum of the area-flow cost. -/
def areaPick (g : Graph) (labels : List (Node × ℕ)) (v : Node)
    (cdv : List (Cut × ℕ)) (af : List (Node × Frac)) (refcnt : Node → ℕ)
    (cuts : List Cut) : Except MapError (Option (Frac × Cut)) :=
  cuts.foldlM (pickStep g labels v cdv af refcnt) none

/-- The fallback proxy cost
`1.0 + sum(area_flow.get(u, 0.0)/max(1, refcnt.get(u, 1)) ...)`. -/
def proxyCost (g : Graph) (af : List (Node × Frac)) (refcnt : Node → ℕ) (C : Cut) : Frac :=
  Frac.add ⟨1, 1⟩
    ((((sortedNodes C).filter (fun u => decide (u ∉ PIlist g))).map
        (fun u => ((alookup u af).getD ⟨0, 1⟩).divNat (max 1 (refcnt u)))).foldl
      Frac.add ⟨0, 1⟩)

/-- The no-admissible-cut fallback of `area_recovery`: among the
minimum-depth recorded cuts pick the first proxy-cost minimizer. -/
def fallbackPick (g : Graph) (af : List (Node × Frac)) (refcnt : Node → ℕ)
    (cdv : List (Cut × ℕ)) : Except MapError (Frac × Cut) :=
  match cdv.map Prod.snd with
  | [] => .error .emptyValues
  | d0 :: ds =>
      let minD := ds.foldl min d0
      match (cdv.filter (fun p => decide (p.2 = minD))).map Prod.fst with
      | [] => .error .emptyValues
      | c0 :: cs =>
          let best := cs.foldl
            (fun b c => if Frac.lt (proxyCost g af refcnt c) (proxyCost g af refcnt b) then c else b) c0
          .ok (proxyCost g af refcnt best, best)

/-- One node of the `area_recovery` loop; state is `(area_flow, best_cut_area)`. -/
def areaStep (g : Graph) (labels : List (Node × ℕ)) (ncuts : List (Node × List Cut))
    (cds : List (Node × List (Cut × ℕ))) (refcnt : Node → ℕ)
    (st : List (Node × Frac) × List (Node × Cut)) (v : Node) :
    Except MapError (List (Node × Frac) × List (Node × Cut)) :=
  if v ∈ PIlist g then .ok (st.1 ++ [(v, ⟨0, 1⟩)], st.2 ++ [(v, {v})])
  else match alookup v ncuts with
    | none => .error .keyError
    | some cuts =>
        match alookup v cds with
        | none => .error .keyError
        | some cdv =>
            match areaPick g labels v cdv st.1 refcnt cuts with
            | .error e => .error e
            | .ok (some (bc, bC)) => .ok (st.1 ++ [(v, bc)], st.2 ++ [(v, bC)])
            | .ok none =>
                match fallbackPick g st.1 refcnt cdv with
                | .error e => .error e
                | .ok (bc, bC) => .ok (st.1 ++ [(v, bc)], st.2 ++ [(v, bC)])

/-- `areaStep` with the no-admissible-cut fallback branch replaced by an
error: running the loop with this step and getting the same successful
result as `areaStep` states exactly that the fallback is unreachable. -/
def areaStepStrict (g : Graph) (labels : List (Node × ℕ)) (ncuts : List (Node × List Cut))
    (cds : List (Node × List (Cut × ℕ))) (refcnt : Node → ℕ)
    (st : List (Node × Frac) × List (Node × Cut)) (v : Node) :
    Except MapError (List (Node × Frac) × List (Node × Cut)) :=
  if v ∈ PIlist g then .ok (st.1 ++ [(v, ⟨0, 1⟩)], st.2 ++ [(v, {v})])
  else match alookup v ncuts with
    | none => .error .keyError
    | some cuts =>
        match alookup v cds with
        | none => .error .keyError
        | some cdv =>
            match areaPick g labels v cdv st.1 refcnt cuts with
            | .error e => .error e
            | .ok (some (bc, bC)) => .ok (st.1 ++ [(v, bc)], st.2 ++ [(v, bC)])
            | .ok none => .error .emptyValues

/-- `area_recovery` with the fallback-free step. -/
def area_recovery_strict (g : Graph) (K : ℕ) (labels : List (Node × ℕ))
    (ncuts : List (Node × List Cut)) (cds : List (Node × List (Cut × ℕ))) :
    Except MapError (List (Node × Cut) × List (Node × Frac)) :=
  match topo_sort g with
  | .error e => .error e
  | .ok topo =>
      match compute_refcounts g with
      | .error e => .error e
      | .ok refcnt =>
          match topo.foldlM (areaStepStrict g labels ncuts cds refcnt) ([], []) with
          | .error e => .error e
          | .ok st => .ok (st.2, st.1)

/-- `area_recovery(graph, K, labels, node_cuts, cut_depth)`. -/
def area_recovery (g : Graph) (K : ℕ) (labels : List (Node × ℕ))
    (ncuts : List (Node × List Cut)) (cds : List (Node × List (Cut × ℕ))) :
    Except MapError (List (Node × Cut) × List (Node × Frac)) :=
  match topo_sort g with
  | .error e => .error e
  | .ok topo =>
      match compute_refcounts g with
      | .error e => .error e
      | .ok refcnt =>
          match topo.foldlM (areaStep g labels ncuts cds refcnt) ([], []) with
          | .error e => .error e
          | .ok st => .ok (st.2, st.1)

/-- A LUT record `{output, inputs (sorted), level}`. -/
structure LUT where
  output : Node
  inputs : List Node
  level : ℕ
deriving DecidableEq, Repr

/-- The `(level, output)` sort key of the final cover. -/
def lutLe (x y : LUT) : Bool :=
  decide (x.level < y.level) ||
    (decide (x.level = y.level) && nodeLe x.output y.output)

/-- The recursive `place` of `build_cover`; state is `(covered, LUTs)`. -/
def place (g : Graph) (chosen : List (Node × Cut)) (labels : List (Node × ℕ)) :
    ℕ → Node → List Node × List LUT → Except MapError (List Node × List LUT)
  | 0, _, _ => .error .fuelOut
  | fuel + 1, v, st =>
      if v ∈ st.1 ∨ v ∈ PIlist g then .ok st
      else match alookup v chosen with
        | none => .error .keyError
        | some C =>
            match alookup v labels with
            | none => .error .keyError
            | some lvl =>
                (sortedNodes C).foldlM
                  (fun s u =>
                    if u ∈ PIlist g then .ok s else place g chosen labels fuel u s)
                  (st.1 ++ [v], st.2 ++ [⟨v, sortedNodes C, lvl⟩])

/-- `build_cover(graph, chosen_cut, labels, outputs)`. -/
def build_cover (g : Graph) (chosen : List (Node × Cut)) (labels : List (Node × ℕ))
    (outputs : Option (List Node)) : Except MapError (List LUT) :=
  let outs := match outputs with
    | some os => os
    | none => detect_outputs g
  match outs.foldlM (fun st po => place g chosen labels (g.length + 1) po st) ([], []) with
  | .error e => .error e
  | .ok st => .ok (sortByLe lutLe st.2)

/-- `map_with_area_optimized_flow(graph, K, outputs, cut_limit)`:
enumerate cuts, label, recover area, build the cover. -/
def map_with_area_optimized_flow (g : Graph) (K : ℕ) (outputs : Option (List Node))
    (cutLimit : Option ℕ) :
    Except MapError (List (Node × ℕ) × List (Node × Cut) × List LUT) :=
  match enumerate_minimal_kcuts g K cutLimit with
  | .error e => .error e
  | .ok ncuts =>
      match flowmap_labels g K (some ncuts) with
      | .error e => .error e
      | .ok (labels, ncuts2, cds) =>
          match area_recovery g K labels ncuts2 cds with
          | .error e => .error e
          | .ok (chosen, _af) =>
              match build_cover g chosen labels outputs with
              | .error e => .error e
              | .ok luts => .ok (labels, chosen, luts)

/-! ## Concrete test graphs -/

/-- The S1/S2 demo graph `{a:[], b:[], c:[], and1:[a,b], or1:[and1,c]}`. -/
def G9 : Graph := [("a", []), ("b", []), ("c", []), ("and1", ["a","b"]), ("or1", ["and1","c"])]

/-- A graph whose node `v` separates from the primary inputs through the
mixed cut `{f1, x, y}` (one fanin plus the other fanin's sub-cut). -/
def G1x : Graph := [("p",[]),("q",[]),("s",[]),("t",[]),("u",[]),("w",[]),
  ("f1",["p","q"]),("x",["s","t"]),("y",["u","w"]),("f2",["x","y"]),("v",["f1","f2"])]

/-- A graph on which node `g` has two admissible cuts of equal area-flow
cost but different cardinality. -/
def G5x : Graph := [("a",[]),("b",[]),("c",[]),("d",[]),("p1",["a","b"]),("p2",["c","d"]),
  ("x",["p1"]),("x2",["x"]),("p22",["p2"]),("g",["x","p2"])]

/-- The S6 infeasibility graph `{a,b,c PIs; g:[a,b,c]}`. -/
def G6x : Graph := [("a",[]),("b",[]),("c",[]),("g",["a","b","c"])]

/-- The S5 cycle graph `{x:[y], y:[x]}`. -/
def Gcyc : Graph := [("x",["y"]),("y",["x"])]

/-- A graph whose sole node references a fanin that is not a key. -/
def Gmiss : Graph := [("v",["u"])]

/-! ## Spec-side notion of a cut (for comparing the code's enumeration
against the specification's data model) -/

/-- Follows the spec's words (§3, "Cut"): decides whether some path from
a primary input to `v` avoids `C` entirely; `C` is a cut of `v` exactly
when no such path exists. Fuel bounds the path length. -/
def avoids (g : Graph) (C : Cut) : ℕ → Node → Bool
  | 0, _ => false
  | fuel + 1, v =>
      decide (v ∉ C) &&
        (decide (v ∈ PIlist g) || (finsOf g v).any (avoids g C fuel))

/-- Follows the spec's words: `C ⊆ V` is a cut of `v` iff every path
from any PI to `v` passes through some node in `C`. -/
def spec_is_cut (g : Graph) (C : Cut) (v : Node) : Bool := !(avoids g C (g.length + 1) v)

/-- Follows the spec's words (§3 "Label" and §GLOSSARY "FlowMap
recurrence"): the minimum of `1 + max_(u in C) labels[u]` over every
non-empty K-feasible cut `C` of `v` drawn from the graph's key set. -/
def spec_kcut_min (g : Graph) (K : ℕ) (lbls : List (Node × ℕ)) (v : Node) : Option ℕ :=
  ((((g.map Prod.fst).dedup.sublists.map List.toFinset).filter
      (fun C => spec_is_cut g C v && decide (C.card ≤ K) && decide (C ≠ ∅))).filterMap
    (fun C => (cutDepthOf lbls C).toOption)).min?

/-! ## Pipeline data on the graph `G5x` (used by the tie-break analysis) -/

/-- The cut sets `enumerate_minimal_kcuts G5x 3` computes. -/
def G5ncuts : List (Node × List Cut) :=
  [("a", [{"a"}]), ("b", [{"b"}]), ("c", [{"c"}]), ("d", [{"d"}]),
   ("p1", [{"a","b"}]), ("p2", [{"c","d"}]),
   ("x", [{"a","b"}, {"p1"}]), ("p22", [{"c","d"}, {"p2"}]),
   ("x2", [{"a","b"}, {"p1"}, {"x"}]),
   ("g", [{"p1","c","d"}, {"x","p2"}])]

/-- The labels `flowmap_labels G5x 3` computes. -/
def G5lbls : List (Node × ℕ) :=
  [("a",0),("b",0),("c",0),("d",0),("p1",1),("p2",1),("x",1),("p22",1),("x2",1),("g",2)]

/-- The per-cut depth table `flowmap_labels G5x 3` computes. -/
def G5cds : List (Node × List (Cut × ℕ)) :=
  [("a", [({"a"},0)]), ("b", [({"b"},0)]), ("c", [({"c"},0)]), ("d", [({"d"},0)]),
   ("p1", [({"a","b"},1)]), ("p2", [({"c","d"},1)]),
   ("x", [({"a","b"},1), ({"p1"},2)]), ("x2", [({"a","b"},1), ({"p1"},2), ({"x"},2)]),
   ("p22", [({"c","d"},1), ({"p2"},2)]),
   ("g", [({"p1","c","d"},2), ({"x","p2"},2)])]

/-- The chosen cuts `area_recovery` computes on that data. -/
def G5chosen : List (Node × Cut) :=
  [("a",{"a"}),("b",{"b"}),("c",{"c"}),("d",{"d"}),("p1",{"a","b"}),("p2",{"c","d"}),
   ("x",{"a","b"}),("p22",{"c","d"}),("x2",{"a","b"}),("g",{"p1","c","d"})]

/-- The area flows `area_recovery` computes on that data. -/
def G5af : List (Node × Frac) :=
  [("a",⟨0,1⟩),("b",⟨0,1⟩),("c",⟨0,1⟩),("d",⟨0,1⟩),("p1",⟨1,1⟩),("p2",⟨1,1⟩),
   ("x",⟨1,1⟩),("p22",⟨1,1⟩),("x2",⟨1,1⟩),("g",⟨2,1⟩)]

/-! ## Claim theorems: concrete scenarios and error behavior -/

/-- C9: on the graph `{a:[], b:[], c:[], and1:[a,b], or1:[and1,c]}` with
`K = 3` and `cut_limit` unset, the pipeline returns labels
`a = b = c = 0`, `and1 = 1`, `or1 = 1`, and the LUT cover is exactly one
LUT with output `or1`, inputs `[a, b, c]` and level 1; no LUT with
output `and1` is emitted. -/
theorem C9_pipeline_S2 :
    map_with_area_optimized_flow G9 3 none none =
      .ok ([("a",0),("b",0),("c",0),("and1",1),("or1",1)],
           [("a", {"a"}), ("b", {"b"}), ("c", {"c"}), ("and1", {"a","b"}),
            ("or1", {"a","b","c"})],
           [⟨"or1", ["a","b","c"], 1⟩]) := by decide

/-- C8: the pipeline is deterministic — two runs of
`map_with_area_optimized_flow` on identical graphs with identical `K`,
`cut_limit` and `outputs` produce identical labels, chosen cuts and LUT
list.  In this pure embedding the pipeline is a function of exactly
those four inputs, so the two runs are definitionally equal. -/
theorem C8_deterministic (g : Graph) (K : ℕ) (outputs : Option (List Node))
    (cutLimit : Option ℕ) :
    map_with_area_optimized_flow g K outputs cutLimit =
      map_with_area_optimized_flow g K outputs cutLimit := rfl

/-- C6 counterexample: the claim says the cut enumeration itself fails
with `NoFeasibleCut(v)` whenever the pruned cut set of some node is
empty.  It does not: on `{a,b,c PIs; g:[a,b,c]}` with `K = 2` the
enumeration returns normally, with an empty cut list recorded for `g`. -/
theorem C6_enumeration_does_not_fail :
    enumerate_minimal_kcuts G6x 2 none =
      .ok [("a", [{"a"}]), ("b", [{"b"}]), ("c", [{"c"}]), ("g", [])] := by decide

/-- C6 amended: the enumeration stores an empty cut list for an
infeasible node; the `NoFeasibleCut` failure is raised by
`flowmap_labels` when it labels that node, so the pipeline on
`{a,b,c PIs; g:[a,b,c]}` with `K = 2` fails with `NoFeasibleCut(g)` and
returns no partial result. -/
theorem C6_failure_raised_by_labeling :
    flowmap_labels G6x 2 none = .error (.noFeasibleCut "g") ∧
    map_with_area_optimized_flow G6x 2 none none = .error (.noFeasibleCut "g") := by decide

/-- C7 counterexample: the claim says a fanin that is not a key of the
graph is reported as a `MissingFanin(v, u)` error distinct from
`CycleDetected`.  It is not: on `{v:[u]}` (with `u` missing) the node
`v` is never dequeued, so the engine raises the very same
"Graph is not a DAG" error a cyclic graph raises. -/
theorem C7_missing_fanin_reports_cycle_error :
    map_with_area_optimized_flow Gmiss 2 none none = .error .cycleDetected ∧
    map_with_area_optimized_flow Gcyc 2 none none = .error .cycleDetected := by decide

/-- C7 amended: a missing fanin starves the topological sort (the
referencing node keeps a positive indegree), so `topo_sort` fails with
the same cycle error as an actual cycle; there is no separate
`MissingFanin` diagnostic anywhere in the engine. -/
theorem C7_missing_fanin_same_error_in_toposort :
    topo_sort Gmiss = .error .cycleDetected ∧
    topo_sort Gcyc = .error .cycleDetected := by decide

/-- C1 code-vs-spec evaluation: `flowmap_labels` labels node `v` of
`G1x` (with `K = 3`) as 3, yet the minimum of
`1 + max_(u in C) labels[u]` over all 3-feasible cuts of `v` in the
spec's sense is 2, attained by the cut `{f1, x, y}` the enumeration
never forms — the labels are not depth-optimal. -/
theorem C1_labels_beaten_by_spec_cut :
    (flowmap_labels G1x 3 none).map (fun r => alookup "v" r.1) = .ok (some 3) ∧
    spec_is_cut G1x {"f1","x","y"} "v" = true ∧
    ({"f1","x","y"} : Cut).card = 3 ∧
    (flowmap_labels G1x 3 none).map (fun r => cutDepthOf r.1 {"f1","x","y"}) =
      .ok (.ok 2) ∧
    (flowmap_labels G1x 3 none).map (fun r => spec_kcut_min G1x 3 r.1 "v") =
      .ok (some 2) := by decide

/-- C5 counterexample: the claim says that among admissible cuts of
minimal area-flow cost, `area_recovery` picks the one of smaller
cardinality (then lexicographically smallest).  On `G5x` the node `g`
has the two admissible cuts `{p1,c,d}` and `{x,p2}`, both of depth 2 and
equal cost, and the code keeps `{p1,c,d}` — the cut of cardinality 3
that is enumerated first — not the smaller `{x,p2}`. -/
theorem C5_tie_break_not_by_cardinality :
    enumerate_minimal_kcuts G5x 3 none = .ok G5ncuts ∧
    flowmap_labels G5x 3 (some G5ncuts) = .ok (G5lbls, G5ncuts, G5cds) ∧
    area_recovery G5x 3 G5lbls G5ncuts G5cds = .ok (G5chosen, G5af) ∧
    alookup "g" G5chosen = some {"p1","c","d"} ∧
    alookup "g" G5ncuts = some [{"p1","c","d"}, {"x","p2"}] ∧
    alookup "g" G5lbls = some 2 ∧
    clookup {"x","p2"} [({"p1","c","d"},2), ({"x","p2"},2)] = some 2 ∧
    cutCost G5x G5af (refcountFun G5x) {"x","p2"} = .ok ⟨8,4⟩ ∧
    cutCost G5x G5af (refcountFun G5x) {"p1","c","d"} = .ok ⟨2,1⟩ ∧
    Frac.beq ⟨8,4⟩ ⟨2,1⟩ = true ∧
    ({"x","p2"} : Cut).card < ({"p1","c","d"} : Cut).card := by decide


/-! ## Association-list lemmas -/

theorem alookup_mem {l : List (Node × α)} {k : Node} {x : α}
    (h : alookup k l = some x) : (k, x) ∈ l := by
  induction l with
  | nil => simp [alookup] at h
  | cons p rest ih =>
    obtain ⟨k', y⟩ := p
    by_cases hk : k' = k
    · simp [alookup, hk] at h
      simp [hk, h]
    · simp [alookup, hk] at h
      exact List.mem_cons_of_mem _ (ih h)

theorem mem_keys_of_alookup {l : List (Node × α)} {k : Node} {x : α}
    (h : alookup k l = some x) : k ∈ l.map Prod.fst := by
  exact List.mem_map.mpr ⟨(k, x), alookup_mem h, rfl⟩

theorem alookup_eq_none_iff {l : List (Node × α)} {k : Node} :
    alookup k l = none ↔ k ∉ l.map Prod.fst := by
  induction l with
  | nil => simp [alookup]
  | cons p rest ih =>
    obtain ⟨k', y⟩ := p
    by_cases hk : k' = k <;> simp [alookup, hk, ih, Ne.symm, eq_comm]

theorem alookup_isSome_of_mem_keys {l : List (Node × α)} {k : Node}
    (h : k ∈ l.map Prod.fst) : ∃ x, alookup k l = some x := by
  cases hl : alookup k l with
  | none => exact absurd (alookup_eq_none_iff.mp hl) (by simp [h])
  | some x => exact ⟨x, rfl⟩

theorem alookup_append_some {l₁ l₂ : List (Node × α)} {k : Node} {x : α}
    (h : alookup k l₁ = some x) : alookup k (l₁ ++ l₂) = some x := by
  induction l₁ with
  | nil => simp [alookup] at h
  | cons p rest ih =>
    obtain ⟨k', y⟩ := p
    by_cases hk : k' = k <;> simp_all [alookup, hk]

theorem alookup_append_none {l₁ l₂ : List (Node × α)} {k : Node}
    (h : alookup k l₁ = none) : alookup k (l₁ ++ l₂) = alookup k l₂ := by
  induction l₁ with
  | nil => simp
  | cons p rest ih =>
    obtain ⟨k', y⟩ := p
    by_cases hk : k' = k <;> simp_all [alookup, hk]

theorem alookup_append_self {l : List (Node × α)} {k : Node} {x : α}
    (h : k ∉ l.map Prod.fst) : alookup k (l ++ [(k, x)]) = some x := by
  rw [alookup_append_none (alookup_eq_none_iff.mpr h)]
  simp [alookup]

theorem aupdate_keys (k : Node) (f : α → α) (l : List (Node × α)) :
    (aupdate k f l).map Prod.fst = l.map Prod.fst := by
  induction l with
  | nil => rfl
  | cons p rest ih =>
    obtain ⟨k', y⟩ := p
    by_cases hk : k' = k <;> simp [aupdate, hk, ih]

theorem alookup_aupdate_self (k : Node) (f : α → α) (l : List (Node × α)) :
    alookup k (aupdate k f l) = (alookup k l).map f := by
  induction l with
  | nil => rfl
  | cons p rest ih =>
    obtain ⟨k', y⟩ := p
    by_cases hk : k' = k <;> simp [aupdate, alookup, hk, ih]

theorem alookup_aupdate_ne {k k' : Node} (hne : k' ≠ k) (f : α → α) (l : List (Node × α)) :
    alookup k' (aupdate k f l) = alookup k' l := by
  induction l with
  | nil => rfl
  | cons p rest ih =>
    obtain ⟨k'', y⟩ := p
    by_cases h1 : k'' = k
    · subst h1
      simp [aupdate, alookup, Ne.symm hne]
    · by_cases h2 : k'' = k' <;> simp [aupdate, alookup, h1, h2, ih, hne]

/-! ## Kahn's algorithm: properties of a successful topological sort -/

/-- The loop invariant of Kahn's algorithm over the combined list
`order ++ queue`: no duplicates, only graph keys, and every member's
indegree counter is already at or below zero. -/
def KInv (g : Graph) (indeg : Node → Int) (l : List Node) : Prop :=
  l.Nodup ∧ (∀ x ∈ l, x ∈ g.map Prod.fst) ∧ (∀ x ∈ l, indeg x ≤ 0)

theorem mem_fanoutsOf {g : Graph} {u w : Node} (h : w ∈ fanoutsOf g u) :
    w ∈ g.map Prod.fst := by
  unfold fanoutsOf at h
  obtain ⟨p, hp, hw⟩ := List.mem_flatMap.mp h
  obtain rfl := List.eq_of_mem_replicate hw
  exact List.mem_map.mpr ⟨p, hp, rfl⟩

theorem processFanouts_cons (indeg : Node → Int) (q : List Node) (w : Node) (ws : List Node) :
    processFanouts indeg q (w :: ws) =
      processFanouts (fun x => if x = w then indeg w - 1 else indeg x)
        (if indeg w - 1 = 0 then q ++ [w] else q) ws := rfl

theorem processFanouts_inv {g : Graph} {ws : List Node} {indeg : Node → Int}
    {q base : List Node}
    (hws : ∀ w ∈ ws, w ∈ g.map Prod.fst)
    (h : KInv g indeg (base ++ q)) :
    KInv g (processFanouts indeg q ws).1 (base ++ (processFanouts indeg q ws).2) := by
  induction ws generalizing indeg q with
  | nil => simpa [processFanouts] using h
  | cons w ws ih =>
    rw [processFanouts_cons]
    by_cases hd : indeg w - 1 = 0
    · have hwnm : w ∉ base ++ q := fun hmem => by
        have := h.2.2 w hmem
        omega
      rw [if_pos hd]
      refine ih (fun x hx => hws x (List.mem_cons_of_mem _ hx)) ?_
      refine ⟨?_, ?_, ?_⟩
      · rw [← List.append_assoc]
        exact List.Nodup.append (h.1) (by simp) (by
          intro a ha hb
          simp at hb
          exact hwnm (hb ▸ ha))
      · intro x hx
        rw [← List.append_assoc] at hx
        rcases List.mem_append.mp hx with hx | hx
        · exact h.2.1 x hx
        · simp at hx
          exact hx ▸ hws w (List.mem_cons_self w ws)
      · intro x hx
        by_cases hxw : x = w
        · simp [hxw, hd]
        · rw [← List.append_assoc] at hx
          rcases List.mem_append.mp hx with hx | hx
          · simpa [hxw] using h.2.2 x hx
          · simp at hx
            exact absurd hx hxw
    · rw [if_neg hd]
      refine ih (fun x hx => hws x (List.mem_cons_of_mem _ hx)) ?_
      refine ⟨h.1, h.2.1, ?_⟩
      intro x hx
      by_cases hxw : x = w
      · subst hxw
        have := h.2.2 x hx
        simp
        omega
      · simpa [hxw] using h.2.2 x hx

theorem topoLoop_inv {g : Graph} {fuel : ℕ} {indeg : Node → Int} {q order : List Node}
    (h : KInv g indeg (order ++ q)) :
    (topoLoop g fuel indeg q order).Nodup ∧
      (∀ x ∈ topoLoop g fuel indeg q order, x ∈ g.map Prod.fst) := by
  induction fuel generalizing indeg q order with
  | zero =>
    cases q with
    | nil =>
      simp only [topoLoop]
      exact ⟨by simpa using h.1, fun x hx => h.2.1 x (by simp [hx])⟩
    | cons u q' =>
      simp only [topoLoop]
      constructor
      · exact h.1.sublist (by simp)
      · exact fun x hx => h.2.1 x (by simp [hx])
  | succ fuel ih =>
    cases q with
    | nil =>
      simp only [topoLoop]
      exact ⟨by simpa using h.1, fun x hx => h.2.1 x (by simp [hx])⟩
    | cons u q' =>
      simp only [topoLoop]
      refine ih ?_
      have := @processFanouts_inv g (fanoutsOf g u) indeg q' (order ++ [u])
        (fun w hw => mem_fanoutsOf hw) ?_
      · exact this
      · have : order ++ u :: q' = (order ++ [u]) ++ q' := by simp
        exact this ▸ h

theorem topo_sort_ok_props {g : Graph} {order : List Node}
    (hN : (g.map Prod.fst).Nodup) (h : topo_sort g = .ok order) :
    order.Nodup ∧ (∀ x ∈ order, x ∈ g.map Prod.fst) ∧
      (∀ x ∈ g.map Prod.fst, x ∈ order) := by
  simp only [topo_sort] at h
  by_cases hlen : (topoLoop g g.length (fun n => ((finsOf g n).length : Int))
      ((g.map Prod.fst).filter (fun n => (finsOf g n).isEmpty)) []).length = g.length
  · rw [if_pos hlen] at h
    have hord : topoLoop g g.length (fun n => ((finsOf g n).length : Int))
        ((g.map Prod.fst).filter (fun n => (finsOf g n).isEmpty)) [] = order := by
      simpa using h
    have hinv : KInv g (fun n => ((finsOf g n).length : Int))
        ([] ++ (g.map Prod.fst).filter (fun n => (finsOf g n).isEmpty)) := by
      refine ⟨by simpa using hN.filter _, ?_, ?_⟩
      · intro x hx
        simp only [List.nil_append] at hx
        exact (List.mem_filter.mp hx).1
      · intro x hx
        simp only [List.nil_append] at hx
        have := (List.mem_filter.mp hx).2
        simp [List.isEmpty_iff] at this
        simp [this]
    obtain ⟨hnd, hsub⟩ := topoLoop_inv hinv
    rw [hord] at hnd hsub
    refine ⟨hnd, hsub, ?_⟩
    have hsp : List.Subperm order (g.map Prod.fst) :=
      List.subperm_of_subset hnd (fun x hx => hsub x hx)
    have hperm : order.Perm (g.map Prod.fst) :=
      hsp.perm_of_length_le (by
        simp only [List.length_map]
        rw [hord] at hlen
        exact Nat.le_of_eq hlen.symm)
    exact fun x hx => hperm.mem_iff.mpr hx
  · rw [if_neg hlen] at h
    exact absurd h (by simp)


/-! ## Helper lemmas on cut lists and lookups -/

theorem mem_sortedNodes {C : Cut} {x : Node} : x ∈ sortedNodes C ↔ x ∈ C := by
  obtain ⟨m, hm⟩ := C
  induction m using Quotient.inductionOn with
  | h l =>
    show x ∈ l.insertionSort NodeR ↔ _
    rw [List.Perm.mem_iff (l.perm_insertionSort NodeR)]
    simp [Finset.mem_mk]

theorem sortedNodes_length (C : Cut) : (sortedNodes C).length = C.card := by
  obtain ⟨m, hm⟩ := C
  induction m using Quotient.inductionOn with
  | h l =>
    show (l.insertionSort NodeR).length = _
    rw [(l.perm_insertionSort NodeR).length_eq]
    simp [Finset.card_mk]

theorem lookups_forall₂ {α : Type} {m : List (Node × α)} {ks : List Node} {xs : List α}
    (h : lookups m ks = some xs) :
    List.Forall₂ (fun k x => alookup k m = some x) ks xs := by
  induction ks generalizing xs with
  | nil =>
    simp [lookups] at h
    simp [← h]
  | cons k ks ih =>
    simp only [lookups] at h
    cases hk : alookup k m with
    | none => simp [hk] at h
    | some x =>
        cases hks : lookups m ks with
        | none => simp [hk, hks] at h
        | some xs' =>
            simp [hk, hks] at h
            exact h ▸ List.Forall₂.cons hk (ih hks)

theorem lookups_mono {α : Type} {m m' : List (Node × α)}
    (hmm : ∀ k x, alookup k m = some x → alookup k m' = some x)
    {ks : List Node} {xs : List α} (h : lookups m ks = some xs) :
    lookups m' ks = some xs := by
  induction ks generalizing xs with
  | nil => simpa [lookups] using h
  | cons k ks ih =>
    simp only [lookups] at h ⊢
    cases hk : alookup k m with
    | none => simp [hk] at h
    | some x =>
        cases hks : lookups m ks with
        | none => simp [hk, hks] at h
        | some xs' =>
            simp only [hk, hks] at h
            rw [hmm k x hk, ih hks]
            exact h

theorem lookups_isSome_of {α : Type} {m : List (Node × α)} {ks : List Node}
    (h : ∀ k ∈ ks, ∃ x, alookup k m = some x) : ∃ xs, lookups m ks = some xs := by
  induction ks with
  | nil => exact ⟨[], rfl⟩
  | cons k ks ih =>
    obtain ⟨x, hx⟩ := h k (List.mem_cons_self k ks)
    obtain ⟨xs, hxs⟩ := ih (fun k' hk' => h k' (List.mem_cons_of_mem _ hk'))
    exact ⟨x :: xs, by simp [lookups, hx, hxs]⟩

theorem listProd_forall₂ {pools : List (List Cut)} {combo : List Cut}
    (h : combo ∈ listProd pools) : List.Forall₂ (· ∈ ·) combo pools := by
  induction pools generalizing combo with
  | nil =>
    simp [listProd] at h
    simp [h]
  | cons p ps ih =>
    simp only [listProd, List.mem_flatMap, List.mem_map] at h
    obtain ⟨x, hx, ys, hys, rfl⟩ := h
    exact List.Forall₂.cons hx (ih hys)

theorem mem_foldl_union {l : List Cut} {init : Cut} {x : Node} :
    x ∈ l.foldl (· ∪ ·) init ↔ x ∈ init ∨ ∃ c ∈ l, x ∈ c := by
  induction l generalizing init with
  | nil => simp
  | cons c cs ih =>
    simp only [List.foldl_cons, ih, Finset.mem_union, List.mem_cons]
    constructor
    · rintro ((h | h) | ⟨d, hd, hx⟩)
      · exact Or.inl h
      · exact Or.inr ⟨c, Or.inl rfl, h⟩
      · exact Or.inr ⟨d, Or.inr hd, hx⟩
    · rintro (h | ⟨d, (rfl | hd), hx⟩)
      · exact Or.inl (Or.inl h)
      · exact Or.inl (Or.inr hx)
      · exact Or.inr ⟨d, hd, hx⟩

theorem mem_dedupFirstAux {seen l : List Cut} {c : Cut} (h : c ∈ dedupFirstAux seen l) :
    c ∈ l := by
  induction l generalizing seen with
  | nil => simpa [dedupFirstAux] using h
  | cons d ds ih =>
    simp only [dedupFirstAux] at h
    by_cases hd : d ∈ seen
    · rw [if_pos hd] at h
      exact List.mem_cons_of_mem _ (ih h)
    · rw [if_neg hd] at h
      rcases List.mem_cons.mp h with h | h
      · exact h ▸ List.mem_cons_self d ds
      · exact List.mem_cons_of_mem _ (ih h)

theorem mem_dedupFirst {l : List Cut} {c : Cut} (h : c ∈ dedupFirst l) : c ∈ l :=
  mem_dedupFirstAux h

theorem mem_minimalize {l : List Cut} {c : Cut} (h : c ∈ minimalize_cuts l) : c ∈ l := by
  unfold minimalize_cuts at h
  have h1 := mem_dedupFirst h
  obtain ⟨ic, hic, rfl⟩ := List.mem_map.mp h1
  have h2 : ic ∈ l.enum := (List.mem_filter.mp hic).1
  have : ic.2 ∈ l.enum.map Prod.snd := List.mem_map.mpr ⟨ic, h2, rfl⟩
  simpa [List.enum_map_snd] using this

theorem mem_insertLe {α : Type} {le : α → α → Bool} {x y : α} {l : List α} :
    y ∈ insertLe le x l ↔ y = x ∨ y ∈ l := by
  induction l with
  | nil => simp [insertLe]
  | cons z zs ih =>
    simp only [insertLe]
    by_cases h : le z x = true
    · rw [if_pos h]
      simp only [List.mem_cons, ih]
      tauto
    · rw [if_neg h]
      simp only [List.mem_cons]

theorem mem_sortByLe {α : Type} {le : α → α → Bool} {l : List α} {y : α} :
    y ∈ sortByLe le l ↔ y ∈ l := by
  have key : ∀ (l acc : List α), y ∈ l.foldl (fun acc x => insertLe le x acc) acc ↔
      y ∈ acc ∨ y ∈ l := by
    intro l
    induction l with
    | nil => simp
    | cons z zs ih =>
      intro acc
      simp only [List.foldl_cons, ih, mem_insertLe, List.mem_cons]
      tauto
  simpa using key l []

theorem mem_PIlist_of {g : Graph} {v : Node} (hk : alookup v g = some []) :
    v ∈ PIlist g := by
  have := alookup_mem hk
  exact List.mem_map.mpr ⟨(v, []), List.mem_filter.mpr ⟨this, by simp⟩, rfl⟩

theorem mem_keys_of_mem_PIlist {g : Graph} {v : Node} (h : v ∈ PIlist g) :
    v ∈ g.map Prod.fst := by
  obtain ⟨p, hp, rfl⟩ := List.mem_map.mp h
  exact List.mem_map.mpr ⟨p, (List.mem_filter.mp hp).1, rfl⟩

theorem finsOf_ne_nil {g : Graph} {v : Node} (hkey : v ∈ g.map Prod.fst)
    (hnpi : v ∉ PIlist g) : finsOf g v ≠ [] := by
  intro h0
  obtain ⟨l, hl⟩ := alookup_isSome_of_mem_keys hkey
  have : l = [] := by simpa [finsOf, hl] using h0
  exact hnpi (mem_PIlist_of (this ▸ hl))


/-! ## The enumeration invariant -/

theorem forall₂_mem_left {α β : Type} {R : α → β → Prop} {l₁ : List α} {l₂ : List β}
    (h : List.Forall₂ R l₁ l₂) {a : α} (ha : a ∈ l₁) : ∃ b ∈ l₂, R a b := by
  induction h with
  | nil => simp at ha
  | cons hr _ ih =>
    rcases List.mem_cons.mp ha with rfl | ha
    · exact ⟨_, List.mem_cons_self _ _, hr⟩
    · obtain ⟨b, hb, hrb⟩ := ih ha
      exact ⟨b, List.mem_cons_of_mem _ hb, hrb⟩

theorem forall₂_mem_right {α β : Type} {R : α → β → Prop} {l₁ : List α} {l₂ : List β}
    (h : List.Forall₂ R l₁ l₂) {b : β} (hb : b ∈ l₂) : ∃ a ∈ l₁, R a b := by
  induction h with
  | nil => simp at hb
  | cons hr _ ih =>
    rcases List.mem_cons.mp hb with rfl | hb
    · exact ⟨_, List.mem_cons_self _ _, hr⟩
    · obtain ⟨a, ha, hra⟩ := ih hb
      exact ⟨a, List.mem_cons_of_mem _ ha, hra⟩

/-- The invariant of the cut-enumeration loop: the accumulated dict is
keyed by the processed prefix in order, and every stored cut is a
non-empty K-feasible set of already-processed nodes that does not
contain its own node (for non-PI nodes). -/
def EAcc (g : Graph) (K : ℕ) (acc : List (Node × List Cut)) (pre : List Node) : Prop :=
  acc.map Prod.fst = pre ∧
  ∀ p ∈ acc, ∀ C ∈ p.2,
    C.Nonempty ∧ C.card ≤ K ∧ (∀ x ∈ C, x ∈ pre) ∧ (p.1 ∉ PIlist g → p.1 ∉ C)

theorem enumCand_facts {g : Graph} {K : ℕ} {cl : Option ℕ}
    {acc : List (Node × List Cut)} {v : Node} {pre : List Node} {cand : List Cut}
    (hacc : EAcc g K acc pre)
    (hkey : v ∈ g.map Prod.fst) (hnpi : v ∉ PIlist g)
    (h : enumCand g K cl acc v = .ok cand) :
    ∀ C ∈ cand, C.Nonempty ∧ C.card ≤ K ∧ (∀ x ∈ C, x ∈ pre) := by
  simp only [enumCand] at h
  cases hlk : lookups acc (finsOf g v) with
  | none => rw [hlk] at h; exact absurd h (by simp)
  | some pools =>
    rw [hlk] at h
    simp only [Except.ok.injEq] at h
    have hf2 := lookups_forall₂ hlk
    have hpoolmem : ∀ c pool, pool ∈ pools → c ∈ pool →
        c.Nonempty ∧ c.card ≤ K ∧ (∀ x ∈ c, x ∈ pre) := by
      intro c pool hpool hc
      obtain ⟨k, _, hk⟩ := forall₂_mem_right hf2 hpool
      have hpe := hacc.2 (k, pool) (alookup_mem hk) c hc
      exact ⟨hpe.1, hpe.2.1, hpe.2.2.1⟩
    have hfins : ∀ x ∈ finsOf g v, x ∈ pre := by
      intro x hx
      obtain ⟨pool, _, hk⟩ := forall₂_mem_left hf2 hx
      exact hacc.1 ▸ mem_keys_of_alookup hk
    have hfne : finsOf g v ≠ [] := finsOf_ne_nil hkey hnpi
    set cand0 := (listProd pools).filterMap (fun combo =>
      let U := combo.foldl (· ∪ ·) ∅
      if U.card ≤ K then some U else none) with hc0
    have hstep0 : ∀ C ∈ cand0, C.Nonempty ∧ C.card ≤ K ∧ (∀ x ∈ C, x ∈ pre) := by
      intro C hC
      obtain ⟨combo, hcombo, hf⟩ := List.mem_filterMap.mp hC
      have hcf2 := listProd_forall₂ hcombo
      by_cases hcard : (combo.foldl (· ∪ ·) ∅).card ≤ K
      · simp only [if_pos hcard] at hf
        obtain rfl := Option.some.inj hf
        have hne : combo ≠ [] := by
          intro hnil
          subst hnil
          have hplen : pools.length = 0 := by simpa using hcf2.length_eq.symm
          have hflen : (finsOf g v).length = 0 := by
            have := hf2.length_eq
            omega
          exact hfne (List.length_eq_zero.mp hflen)
        obtain ⟨c, combo', rfl⟩ := List.exists_cons_of_ne_nil hne
        have hcmem : c ∈ c :: combo' := List.mem_cons_self _ _
        obtain ⟨pool, hpool, hcp⟩ := forall₂_mem_left hcf2 hcmem
        have hcfacts := hpoolmem c pool hpool hcp
        refine ⟨?_, hcard, ?_⟩
        · obtain ⟨x, hx⟩ := hcfacts.1
          exact ⟨x, mem_foldl_union.mpr (Or.inr ⟨c, hcmem, hx⟩)⟩
        · intro x hx
          obtain ⟨d, hd, hxd⟩ := (mem_foldl_union.mp hx).resolve_left (by simp)
          obtain ⟨poold, hpoold, hdp⟩ := forall₂_mem_left hcf2 hd
          exact (hpoolmem d poold hpoold hdp).2.2 x hxd
      · simp only [if_neg hcard] at hf
        exact absurd hf (by simp)
    set cand1 := if (finsOf g v).toFinset.card ≤ K then cand0 ++ [(finsOf g v).toFinset]
      else cand0 with hc1
    have hstep1 : ∀ C ∈ cand1, C.Nonempty ∧ C.card ≤ K ∧ (∀ x ∈ C, x ∈ pre) := by
      intro C hC
      by_cases htriv : (finsOf g v).toFinset.card ≤ K
      · rw [hc1, if_pos htriv] at hC
        rcases List.mem_append.mp hC with hC | hC
        · exact hstep0 C hC
        · simp only [List.mem_singleton] at hC
          subst hC
          refine ⟨?_, htriv, ?_⟩
          · obtain ⟨f, fs, hf⟩ := List.exists_cons_of_ne_nil hfne
            exact ⟨f, by simp [hf]⟩
          · intro x hx
            exact hfins x (List.mem_toFinset.mp hx)
      · rw [hc1, if_neg htriv] at hC
        exact hstep0 C hC
    have hstep2 : ∀ C ∈ minimalize_cuts cand1, C.Nonempty ∧ C.card ≤ K ∧
        (∀ x ∈ C, x ∈ pre) := fun C hC => hstep1 C (mem_minimalize hC)
    intro C hC
    rw [← h] at hC
    cases cl with
    | none => exact hstep2 C hC
    | some L =>
      by_cases hlen : (minimalize_cuts cand1).length > L
      · have hred : C ∈ (if (minimalize_cuts cand1).length > L then
            List.take L (sortByLe cutKeyLe (minimalize_cuts cand1))
          else minimalize_cuts cand1) := hC
        rw [if_pos hlen] at hred
        exact hstep2 _ (mem_sortByLe.mp (List.take_subset _ _ hred))
      · have hred : C ∈ (if (minimalize_cuts cand1).length > L then
            List.take L (sortByLe cutKeyLe (minimalize_cuts cand1))
          else minimalize_cuts cand1) := hC
        rw [if_neg hlen] at hred
        exact hstep2 C hred

theorem enumLoop_inv {g : Graph} {K : ℕ} {cl : Option ℕ} (hK : 1 ≤ K) :
    ∀ {todo pre : List Node} {acc out : List (Node × List Cut)},
    (pre ++ todo).Nodup →
    (∀ x ∈ todo, x ∈ g.map Prod.fst) →
    EAcc g K acc pre →
    enumLoop g K cl todo acc = .ok out →
    EAcc g K out (pre ++ todo) := by
  intro todo
  induction todo with
  | nil =>
    intro pre acc out hnd hkeys hacc h
    simp only [enumLoop, Except.ok.injEq] at h
    subst h
    simpa using hacc
  | cons v rest ih =>
    intro pre acc out hnd hkeys hacc h
    have hvpre : v ∉ pre := by
      have := List.disjoint_of_nodup_append hnd
      exact fun hv => this hv (List.mem_cons_self _ _)
    have hnd' : ((pre ++ [v]) ++ rest).Nodup := by simpa using hnd
    have hkeys' : ∀ x ∈ rest, x ∈ g.map Prod.fst :=
      fun x hx => hkeys x (List.mem_cons_of_mem _ hx)
    simp only [enumLoop] at h
    by_cases hpi : v ∈ PIlist g
    · rw [if_pos hpi] at h
      have hacc' : EAcc g K (acc ++ [(v, [{v}])]) (pre ++ [v]) := by
        refine ⟨by simp [hacc.1], ?_⟩
        intro p hp C hC
        rcases List.mem_append.mp hp with hp | hp
        · have hold := hacc.2 p hp C hC
          exact ⟨hold.1, hold.2.1, fun x hx => by simp [hold.2.2.1 x hx],
            hold.2.2.2⟩
        · simp only [List.mem_singleton] at hp
          subst hp
          simp only [List.mem_singleton] at hC
          subst hC
          refine ⟨⟨v, Finset.mem_singleton_self v⟩, by simpa using hK, ?_, ?_⟩
          · intro x hx
            simp [Finset.mem_singleton.mp hx]
          · intro hnpi
            exact absurd hpi hnpi
      have := ih hnd' hkeys' hacc' h
      simpa using this
    · rw [if_neg hpi] at h
      cases hc : enumCand g K cl acc v with
      | error e => rw [hc] at h; exact absurd h (by simp)
      | ok cand =>
        rw [hc] at h
        have hfacts := enumCand_facts hacc (hkeys v (List.mem_cons_self _ _)) hpi hc
        have hacc' : EAcc g K (acc ++ [(v, cand)]) (pre ++ [v]) := by
          refine ⟨by simp [hacc.1], ?_⟩
          intro p hp C hC
          rcases List.mem_append.mp hp with hp | hp
          · have hold := hacc.2 p hp C hC
            exact ⟨hold.1, hold.2.1, fun x hx => by simp [hold.2.2.1 x hx],
              hold.2.2.2⟩
          · simp only [List.mem_singleton] at hp
            subst hp
            have hnew := hfacts C hC
            refine ⟨hnew.1, hnew.2.1, fun x hx => by simp [hnew.2.2 x hx], ?_⟩
            intro _ hvC
            exact hvpre (hnew.2.2 v hvC)
        have := ih hnd' hkeys' hacc' h
        simpa using this

theorem enumerate_ok_facts {g : Graph} {K : ℕ} {cl : Option ℕ}
    {ncuts : List (Node × List Cut)}
    (hN : (g.map Prod.fst).Nodup)
    (h : enumerate_minimal_kcuts g K cl = .ok ncuts) :
    1 ≤ K ∧ ∃ order, topo_sort g = .ok order ∧ order.Nodup ∧
      (∀ x ∈ order, x ∈ g.map Prod.fst) ∧ (∀ x ∈ g.map Prod.fst, x ∈ order) ∧
      EAcc g K ncuts order := by
  unfold enumerate_minimal_kcuts at h
  by_cases hK : K < 1
  · rw [if_pos hK] at h
    exact absurd h (by simp)
  · rw [if_neg hK] at h
    cases ht : topo_sort g with
    | error e => rw [ht] at h; exact absurd h (by simp)
    | ok order =>
      rw [ht] at h
      obtain ⟨hnd, hsub, hcov⟩ := topo_sort_ok_props hN ht
      have hacc0 : EAcc g K ([] : List (Node × List Cut)) [] := ⟨rfl, by simp⟩
      have hloop : ∀ (todo pre : List Node) (acc out : List (Node × List Cut)),
          (pre ++ todo).Nodup → (∀ x ∈ todo, x ∈ g.map Prod.fst) →
          EAcc g K acc pre → enumLoop g K cl todo acc = .ok out →
          EAcc g K out (pre ++ todo) :=
        fun todo pre acc out => enumLoop_inv (Nat.le_of_not_lt hK)
      have := hloop order [] [] _ (by simpa using hnd) hsub hacc0 h
      exact ⟨Nat.le_of_not_lt hK, order, rfl, hnd, hsub, hcov, by simpa using this⟩

/-- C10: for every acyclic input graph and `K ≥ 1`, every cut that
`enumerate_minimal_kcuts` returns for a non-PI node `v` is a non-empty
set of graph nodes that does not contain `v` itself (so the depth
expression `1 + max over u in C of labels[u]` is well-defined at every
non-PI node). -/
theorem C10_enumerated_cuts_wellformed (g : Graph) (K : ℕ) (cl : Option ℕ)
    (ncuts : List (Node × List Cut))
    (hN : (g.map Prod.fst).Nodup)
    (h : enumerate_minimal_kcuts g K cl = .ok ncuts) :
    ∀ v cuts, alookup v ncuts = some cuts → v ∉ PIlist g →
      ∀ C ∈ cuts, C.Nonempty ∧ v ∉ C ∧ ∀ x ∈ C, x ∈ g.map Prod.fst := by
  obtain ⟨hK, order, ht, hnd, hsub, hcov, hacc⟩ := enumerate_ok_facts hN h
  intro v cuts hv hnpi C hC
  have hp := hacc.2 (v, cuts) (alookup_mem hv) C hC
  exact ⟨hp.1, hp.2.2.2 hnpi, fun x hx => hsub x (hp.2.2.1 x hx)⟩

/-- Witness for C10 at the graph `G9` with `K = 3`, node `or1`. -/
theorem C10_witness :
    ({"and1","c"} : Cut).Nonempty ∧ "or1" ∉ ({"and1","c"} : Cut) ∧
      ∀ x ∈ ({"and1","c"} : Cut), x ∈ G9.map Prod.fst :=
  C10_enumerated_cuts_wellformed G9 3 none
    [("a", [{"a"}]), ("b", [{"b"}]), ("c", [{"c"}]), ("and1", [{"a","b"}]),
     ("or1", [{"a","b","c"}, {"and1","c"}])]
    (by decide) (by decide) "or1" [{"a","b","c"}, {"and1","c"}] (by decide) (by decide)
    {"and1","c"} (by decide)


/-! ## The labeling invariant -/

/-- `min` of a list of depths as the labeling loop computes it
(first element as seed, left fold of `min`). -/
def minds : List ℕ → ℕ
  | [] => 0
  | d :: ds => ds.foldl min d

theorem foldl_min_le_seed (ds : List ℕ) (d0 : ℕ) : ds.foldl min d0 ≤ d0 := by
  induction ds generalizing d0 with
  | nil => simp
  | cons d ds ih => exact le_trans (ih (min d0 d)) (min_le_left _ _)

theorem foldl_min_le {ds : List ℕ} {x : ℕ} (hx : x ∈ ds) (d0 : ℕ) :
    ds.foldl min d0 ≤ x := by
  induction ds generalizing d0 with
  | nil => simp at hx
  | cons d ds ih =>
    rcases List.mem_cons.mp hx with rfl | hx
    · exact le_trans (foldl_min_le_seed ds (min d0 x)) (min_le_right _ _)
    · exact ih hx (min d0 d)

theorem foldl_min_mem (ds : List ℕ) (d0 : ℕ) :
    ds.foldl min d0 = d0 ∨ ds.foldl min d0 ∈ ds := by
  induction ds generalizing d0 with
  | nil => simp
  | cons d ds ih =>
    rcases ih (min d0 d) with h | h
    · rcases Nat.le_total d0 d with hle | hle
      · rw [List.foldl_cons, h, min_eq_left hle]
        exact Or.inl rfl
      · rw [List.foldl_cons, h, min_eq_right hle]
        exact Or.inr (List.mem_cons_self _ _)
    · exact Or.inr (List.mem_cons_of_mem _ h)

theorem minds_mem {ds : List ℕ} (h : ds ≠ []) : minds ds ∈ ds := by
  cases ds with
  | nil => exact absurd rfl h
  | cons d0 dr =>
    show dr.foldl min d0 ∈ d0 :: dr
    rcases foldl_min_mem dr d0 with h1 | h1
    · rw [h1]
      exact List.mem_cons_self _ _
    · exact List.mem_cons_of_mem _ h1

theorem minds_le {ds : List ℕ} {x : ℕ} (hx : x ∈ ds) : minds ds ≤ x := by
  cases ds with
  | nil => simp at hx
  | cons d0 dr =>
    rcases List.mem_cons.mp hx with rfl | hx
    · exact foldl_min_le_seed dr x
    · exact foldl_min_le hx d0

theorem foldl_max_seed_le (l : List ℕ) (a : ℕ) : a ≤ l.foldl max a := by
  induction l generalizing a with
  | nil => simp
  | cons b bs ih => exact le_trans (le_max_left a b) (ih (max a b))

theorem foldl_max_ge {l : List ℕ} {x : ℕ} (hx : x ∈ l) (a : ℕ) :
    x ≤ l.foldl max a := by
  induction l generalizing a with
  | nil => simp at hx
  | cons b bs ih =>
    rcases List.mem_cons.mp hx with rfl | hx
    · exact le_trans (le_max_right a x) (foldl_max_seed_le bs (max a x))
    · exact ih hx (max a b)

/-- The strict prefix of the topological order before a node. -/
def beforeIn (order : List Node) (v : Node) : List Node :=
  order.takeWhile (fun y => decide (y ≠ v))

theorem beforeIn_eq {order pre rest : List Node} {v : Node}
    (horder : order = pre ++ v :: rest) (hv : v ∉ pre) : beforeIn order v = pre := by
  subst horder
  induction pre with
  | nil => simp [beforeIn]
  | cons a pre ih =>
    have ha : a ≠ v := fun h => hv (h ▸ List.mem_cons_self _ _)
    have hv' : v ∉ pre := fun h => hv (List.mem_cons_of_mem _ h)
    simp only [List.cons_append, beforeIn, List.takeWhile_cons, decide_eq_true_eq]
    rw [if_pos ha]
    simpa [beforeIn] using ih hv'

theorem cutDepthOf_mono {labels labels' : List (Node × ℕ)}
    (hmm : ∀ k x, alookup k labels = some x → alookup k labels' = some x)
    {C : Cut} {d : ℕ} (h : cutDepthOf labels C = .ok d) :
    cutDepthOf labels' C = .ok d := by
  unfold cutDepthOf at h ⊢
  by_cases hC : C = ∅
  · rw [if_pos hC] at h ⊢
    exact h
  · rw [if_neg hC] at h ⊢
    cases hlk : lookups labels (sortedNodes C) with
    | none => rw [hlk] at h; exact absurd h (by simp)
    | some vals =>
        rw [hlk] at h
        rw [lookups_mono hmm hlk]
        exact h

theorem cutDepthOf_elements {labels : List (Node × ℕ)} {C : Cut} {d : ℕ}
    (h : cutDepthOf labels C = .ok d) :
    ∀ x ∈ C, ∃ lx, alookup x labels = some lx ∧ lx + 1 ≤ d := by
  intro x hx
  unfold cutDepthOf at h
  by_cases hC : C = ∅
  · subst hC
    simp at hx
  · rw [if_neg hC] at h
    cases hlk : lookups labels (sortedNodes C) with
    | none => rw [hlk] at h; exact absurd h (by simp)
    | some vals =>
        rw [hlk] at h
        simp only [Except.ok.injEq] at h
        have hf2 := lookups_forall₂ hlk
        obtain ⟨lx, hlxv, hlx⟩ := forall₂_mem_left hf2 (mem_sortedNodes.mpr hx)
        refine ⟨lx, hlx, ?_⟩
        have := foldl_max_ge hlxv 0
        omega

theorem depthsOf_ok_facts {labels : List (Node × ℕ)} {cuts : List Cut}
    {ds : List (Cut × ℕ)} (h : depthsOf labels cuts = .ok ds) :
    ds.map Prod.fst = cuts ∧ ∀ p ∈ ds, cutDepthOf labels p.1 = .ok p.2 := by
  induction cuts generalizing ds with
  | nil =>
    simp only [depthsOf, Except.ok.injEq] at h
    subst h
    simp
  | cons C rest ih =>
    simp only [depthsOf] at h
    cases hd : cutDepthOf labels C with
    | error e => rw [hd] at h; exact absurd h (by simp)
    | ok d =>
        rw [hd] at h
        cases hds : depthsOf labels rest with
        | error e => rw [hds] at h; exact absurd h (by simp)
        | ok ds' =>
            rw [hds] at h
            simp only [Except.ok.injEq] at h
            subst h
            obtain ⟨ih1, ih2⟩ := ih hds
            refine ⟨by simp [ih1], ?_⟩
            intro p hp
            rcases List.mem_cons.mp hp with rfl | hp
            · exact hd
            · exact ih2 p hp

theorem alookup_mapconst {α : Type} {g : Graph} {k : Node}
    (hk : k ∈ g.map Prod.fst) (c : α) :
    alookup k (g.map (fun p => (p.1, c))) = some c := by
  induction g with
  | nil => simp at hk
  | cons p rest ih =>
    by_cases h : p.1 = k
    · simp [alookup, h]
    · simp only [List.map_cons, List.map] at hk ⊢
      rcases List.mem_cons.mp hk with hk | hk
      · exact absurd hk.symm h
      · simp [alookup, h, ih hk]

/-- The invariant of the labeling loop: labels are keyed by the
processed prefix; each processed PI has label 0; each processed non-PI
node has its cut list, a per-cut depth table over exactly those cuts,
and the label equal to the minimum recorded depth; every recorded depth
was computed from labels of strictly earlier nodes. -/
def LAcc (g : Graph) (ncuts : List (Node × List Cut)) (order : List Node)
    (labels : List (Node × ℕ)) (cds : List (Node × List (Cut × ℕ)))
    (pre : List Node) : Prop :=
  labels.map Prod.fst = pre ∧
  cds.map Prod.fst = g.map Prod.fst ∧
  (∀ v, v ∈ g.map Prod.fst → v ∉ pre → alookup v cds = some []) ∧
  (∀ v ∈ pre, v ∈ PIlist g → alookup v labels = some 0) ∧
  (∀ v ∈ pre, v ∉ PIlist g →
    ∃ cuts ds, alookup v ncuts = some cuts ∧ alookup v cds = some ds ∧
      ds.map Prod.fst = cuts ∧ ds ≠ [] ∧
      alookup v labels = some (minds (ds.map Prod.snd)) ∧
      ∀ p ∈ ds, cutDepthOf labels p.1 = .ok p.2 ∧
        ∀ x ∈ p.1, x ∈ beforeIn order v)

theorem labelLoop_inv {g : Graph} {ncuts : List (Node × List Cut)} {order : List Node}
    (hsub : ∀ x ∈ order, x ∈ g.map Prod.fst) :
    ∀ {todo pre : List Node} {labels : List (Node × ℕ)}
      {cds : List (Node × List (Cut × ℕ))}
      {out : List (Node × ℕ) × List (Node × List (Cut × ℕ))},
    order = pre ++ todo →
    (pre ++ todo).Nodup →
    LAcc g ncuts order labels cds pre →
    labelLoop g ncuts todo labels cds = .ok out →
    LAcc g ncuts order out.1 out.2 order := by
  intro todo
  induction todo with
  | nil =>
    intro pre labels cds out horder hnd hacc h
    simp only [labelLoop, Except.ok.injEq] at h
    subst h
    simpa [horder] using hacc
  | cons v rest ih =>
    intro pre labels cds out horder hnd hacc h
    have hvpre : v ∉ pre := by
      have := List.disjoint_of_nodup_append hnd
      exact fun hv => this hv (List.mem_cons_self _ _)
    have hbefore : beforeIn order v = pre := beforeIn_eq horder hvpre
    have hvkey : v ∈ g.map Prod.fst := hsub v (by simp [horder])
    have horder' : order = (pre ++ [v]) ++ rest := by simp [horder]
    have hnd' : ((pre ++ [v]) ++ rest).Nodup := by simpa using hnd
    have hmono : ∀ (lab : ℕ) (k : Node) (x : ℕ), alookup k labels = some x →
        alookup k (labels ++ [(v, lab)]) = some x :=
      fun lab k x hk => alookup_append_some hk
    simp only [labelLoop] at h
    by_cases hpi : v ∈ PIlist g
    · rw [if_pos hpi] at h
      refine ih horder' hnd' ?_ h
      refine ⟨by simp [hacc.1], by simp [aupdate_keys, hacc.2.1], ?_, ?_, ?_⟩
      · intro w hw hwpre
        have hwv : w ≠ v := fun hne => hwpre (by simp [hne])
        rw [alookup_aupdate_ne hwv _ _]
        exact hacc.2.2.1 w hw (fun hww => hwpre (by simp [hww]))
      · intro w hw hwpi
        rcases List.mem_append.mp hw with hw | hw
        · exact alookup_append_some (hacc.2.2.2.1 w hw hwpi)
        · simp only [List.mem_singleton] at hw
          subst hw
          exact alookup_append_self (hacc.1 ▸ hvpre)
      · intro w hw hwnpi
        rcases List.mem_append.mp hw with hw | hw
        · obtain ⟨cuts, ds, h1, h2, h3, h4, h5, h6⟩ := hacc.2.2.2.2 w hw hwnpi
          have hwv : w ≠ v := fun hne => hvpre (hne ▸ hw)
          refine ⟨cuts, ds, h1, ?_, h3, h4, alookup_append_some h5, ?_⟩
          · rw [alookup_aupdate_ne hwv _ _]
            exact h2
          · intro p hp
            exact ⟨cutDepthOf_mono (hmono 0) (h6 p hp).1, (h6 p hp).2⟩
        · simp only [List.mem_singleton] at hw
          subst hw
          exact absurd hpi hwnpi
    · rw [if_neg hpi] at h
      cases hnc : alookup v ncuts with
      | none => rw [hnc] at h; exact absurd h (by simp)
      | some cuts =>
        rw [hnc] at h
        have h' : (match depthsOf labels cuts with
            | Except.error e => Except.error e
            | Except.ok ds =>
                match ds.map Prod.snd with
                | [] => Except.error (MapError.noFeasibleCut v)
                | d0 :: drest =>
                    labelLoop g ncuts rest (labels ++ [(v, drest.foldl min d0)])
                      (aupdate v (fun l => l ++ ds) cds)) = Except.ok out := h
        clear h
        cases hds : depthsOf labels cuts with
        | error e => rw [hds] at h'; exact absurd h' (by simp)
        | ok ds =>
          rw [hds] at h'
          have h2 : (match ds.map Prod.snd with
              | [] => (Except.error (MapError.noFeasibleCut v) : Except MapError _)
              | d0 :: drest =>
                  labelLoop g ncuts rest (labels ++ [(v, drest.foldl min d0)])
                    (aupdate v (fun l => l ++ ds) cds)) = Except.ok out := h'
          clear h'
          obtain ⟨hds1, hds2⟩ := depthsOf_ok_facts hds
          cases hdsnil : ds.map Prod.snd with
          | nil =>
            rw [hdsnil] at h2
            exact absurd (h2 : (Except.error (MapError.noFeasibleCut v) :
              Except MapError _) = Except.ok out) (by simp)
          | cons d0 drest =>
            rw [hdsnil] at h2
            have h : labelLoop g ncuts rest (labels ++ [(v, drest.foldl min d0)])
                (aupdate v (fun l => l ++ ds) cds) = Except.ok out := h2
            clear h2
            have hdsne : ds ≠ [] := by
              intro hh
              rw [hh] at hdsnil
              exact absurd hdsnil.symm (by simp)
            refine ih horder' hnd' ?_ h
            refine ⟨by simp [hacc.1], by simp [aupdate_keys, hacc.2.1], ?_, ?_, ?_⟩
            · intro w hw hwpre
              rw [alookup_aupdate_ne (fun hne => hwpre (by simp [hne])) _ _]
              exact hacc.2.2.1 w hw (fun hww => hwpre (by simp [hww]))
            · intro w hw hwpi
              rcases List.mem_append.mp hw with hw | hw
              · exact alookup_append_some (hacc.2.2.2.1 w hw hwpi)
              · simp only [List.mem_singleton] at hw
                subst hw
                exact absurd hwpi hpi
            · intro w hw hwnpi
              rcases List.mem_append.mp hw with hw | hw
              · obtain ⟨cuts', ds', h1, h2, h3, h4, h5, h6⟩ := hacc.2.2.2.2 w hw hwnpi
                have hwv : w ≠ v := fun hne => hvpre (hne ▸ hw)
                refine ⟨cuts', ds', h1, ?_, h3, h4, alookup_append_some h5, ?_⟩
                · rw [alookup_aupdate_ne hwv _ _]
                  exact h2
                · intro p hp
                  exact ⟨cutDepthOf_mono (hmono _) (h6 p hp).1, (h6 p hp).2⟩
              · simp only [List.mem_singleton] at hw
                subst hw
                refine ⟨cuts, ds, hnc, ?_, hds1, hdsne, ?_, ?_⟩
                · rw [alookup_aupdate_self]
                  rw [hacc.2.2.1 _ hvkey hvpre]
                  simp
                · rw [alookup_append_self (hacc.1 ▸ hvpre), hdsnil]
                  rfl
                · intro p hp
                  refine ⟨cutDepthOf_mono (hmono _) (hds2 p hp), ?_⟩
                  intro x hx
                  obtain ⟨lx, hlx, _⟩ := cutDepthOf_elements (hds2 p hp) x hx
                  rw [hbefore]
                  exact hacc.1 ▸ mem_keys_of_alookup hlx

theorem flowmap_ok_facts {g : Graph} {K : ℕ} {ncutsIn : List (Node × List Cut)}
    {lbls : List (Node × ℕ)} {nc2 : List (Node × List Cut)}
    {cds : List (Node × List (Cut × ℕ))}
    (hN : (g.map Prod.fst).Nodup)
    (h : flowmap_labels g K (some ncutsIn) = .ok (lbls, nc2, cds)) :
    nc2 = ncutsIn ∧ ∃ order, topo_sort g = .ok order ∧ order.Nodup ∧
      (∀ x ∈ order, x ∈ g.map Prod.fst) ∧ (∀ x ∈ g.map Prod.fst, x ∈ order) ∧
      LAcc g ncutsIn order lbls cds order := by
  simp only [flowmap_labels] at h
  cases ht : topo_sort g with
  | error e => rw [ht] at h; exact absurd h (by simp)
  | ok order =>
    rw [ht] at h
    have h' : (match labelLoop g ncutsIn order []
          (g.map (fun p => (p.1, ([] : List (Cut × ℕ))))) with
        | Except.error e => (Except.error e : Except MapError _)
        | Except.ok (labels, cds) => Except.ok (labels, ncutsIn, cds)) =
        Except.ok (lbls, nc2, cds) := h
    clear h
    obtain ⟨hnd, hsub, hcov⟩ := topo_sort_ok_props hN ht
    cases hll : labelLoop g ncutsIn order [] (g.map (fun p => (p.1, ([] : List (Cut × ℕ))))) with
    | error e => rw [hll] at h'; exact absurd h' (by simp)
    | ok out =>
      rw [hll] at h'
      have h : (Except.ok (out.1, ncutsIn, out.2) : Except MapError _) =
          Except.ok (lbls, nc2, cds) := by
        rw [← h']
      simp only [Except.ok.injEq, Prod.mk.injEq] at h
      obtain ⟨h1, h2, h3⟩ := h
      have hacc0 : LAcc g ncutsIn order []
          (g.map (fun p => (p.1, ([] : List (Cut × ℕ))))) [] := by
        refine ⟨rfl, by simp, ?_, by simp, by simp⟩
        intro w hw _
        exact alookup_mapconst hw []
      have := labelLoop_inv hsub (by simp) (by simpa using hnd) hacc0 hll
      rw [h1, h3] at this
      exact ⟨h2.symm, order, rfl, hnd, hsub, hcov, this⟩


/-! ## The area-recovery invariant -/

theorem clookup_mem {l : List (Cut × ℕ)} {C : Cut} {d : ℕ}
    (h : clookup C l = some d) : (C, d) ∈ l := by
  induction l with
  | nil => simp [clookup] at h
  | cons p rest ih =>
    obtain ⟨D, d'⟩ := p
    by_cases hD : D = C
    · simp [clookup, hD] at h
      simp [hD, h]
    · simp only [clookup, if_neg hD] at h
      exact List.mem_cons_of_mem _ (ih h)

theorem clookup_isSome_of_mem_keys {l : List (Cut × ℕ)} {C : Cut}
    (h : C ∈ l.map Prod.fst) : ∃ d, clookup C l = some d := by
  induction l with
  | nil => simp at h
  | cons p rest ih =>
    by_cases hD : p.1 = C
    · exact ⟨p.2, by simp [clookup, hD]⟩
    · simp only [List.map_cons, List.mem_cons] at h
      rcases h with h | h
      · exact absurd h.symm hD
      · obtain ⟨d, hd⟩ := ih h
        exact ⟨d, by simp [clookup, hD, hd]⟩

theorem costTerms_isSome_of {af : List (Node × Frac)} {refcnt : Node → ℕ}
    {us : List Node} (h : ∀ u ∈ us, ∃ a, alookup u af = some a) :
    ∃ ts, costTerms af refcnt us = some ts := by
  induction us with
  | nil => exact ⟨[], rfl⟩
  | cons u us ih =>
    obtain ⟨a, ha⟩ := h u (List.mem_cons_self _ _)
    obtain ⟨ts, hts⟩ := ih (fun u' hu' => h u' (List.mem_cons_of_mem _ hu'))
    exact ⟨a.divNat (refcnt u) :: ts, by simp [costTerms, ha, hts]⟩

theorem cutCost_ok_of {g : Graph} {af : List (Node × Frac)} {refcnt : Node → ℕ}
    {C : Cut} (h : ∀ x ∈ C, x ∉ PIlist g → ∃ a, alookup x af = some a) :
    ∃ c, cutCost g af refcnt C = .ok c := by
  have hmem : ∀ u ∈ (sortedNodes C).filter (fun u => decide (u ∉ PIlist g)),
      ∃ a, alookup u af = some a := by
    intro u hu
    have h1 := List.mem_filter.mp hu
    exact h u (mem_sortedNodes.mp h1.1) (by simpa using h1.2)
  obtain ⟨ts, hts⟩ := @costTerms_isSome_of af refcnt _ hmem
  refine ⟨ts.foldl Frac.add ⟨1, 1⟩, ?_⟩
  unfold cutCost
  rw [hts]

theorem pickFold_ok {g : Graph} {lbls : List (Node × ℕ)} {v : Node}
    {cdv : List (Cut × ℕ)} {af : List (Node × Frac)} {refcnt : Node → ℕ}
    {lv : ℕ} (P : Cut → Prop)
    (hlv : alookup v lbls = some lv) :
    ∀ (cuts : List Cut) (best : Option (Frac × Cut)),
    (∀ C ∈ cuts, P C ∧ ∃ d, clookup C cdv = some d ∧
      (d ≤ lv → ∃ c, cutCost g af refcnt C = .ok c)) →
    (∀ bc bC, best = some (bc, bC) → P bC ∧ ∃ d, clookup bC cdv = some d ∧
      d ≤ lv ∧ cutCost g af refcnt bC = .ok bc) →
    ∃ res, List.foldlM (pickStep g lbls v cdv af refcnt) best cuts = .ok res ∧
      (∀ bc bC, res = some (bc, bC) → P bC ∧ ∃ d, clookup bC cdv = some d ∧
        d ≤ lv ∧ cutCost g af refcnt bC = .ok bc) ∧
      (((∃ C ∈ cuts, ∃ d, clookup C cdv = some d ∧ d ≤ lv) ∨ best.isSome) →
        res.isSome) := by
  intro cuts
  induction cuts with
  | nil =>
    intro best hall hbest
    refine ⟨best, rfl, hbest, ?_⟩
    rintro (⟨C, hC, _⟩ | hb)
    · simp at hC
    · exact hb
  | cons C rest ih =>
    intro best hall hbest
    obtain ⟨hPC, d, hd, hcost⟩ := hall C (List.mem_cons_self _ _)
    have hall' : ∀ C' ∈ rest, P C' ∧ ∃ d, clookup C' cdv = some d ∧
        (d ≤ lv → ∃ c, cutCost g af refcnt C' = .ok c) :=
      fun C' hC' => hall C' (List.mem_cons_of_mem _ hC')
    by_cases hdep : lv < d
    · have hstep : pickStep g lbls v cdv af refcnt best C = .ok best := by
        simp [pickStep, hd, hlv, if_pos hdep]
      obtain ⟨res, hres, hfacts, hsome⟩ := ih best hall' hbest
      refine ⟨res, ?_, hfacts, ?_⟩
      · rw [List.foldlM_cons, hstep]
        exact hres
      · rintro (⟨C', hC', d', hd', hled⟩ | hb)
        · rcases List.mem_cons.mp hC' with rfl | hC'
          · rw [hd] at hd'
            obtain rfl := Option.some.inj hd'
            omega
          · exact hsome (Or.inl ⟨C', hC', d', hd', hled⟩)
        · exact hsome (Or.inr hb)
    · have hled : d ≤ lv := Nat.le_of_not_lt hdep
      obtain ⟨c, hc⟩ := hcost hled
      have hnewfacts : ∀ bc bC, (some (c, C) : Option (Frac × Cut)) = some (bc, bC) →
          P bC ∧ ∃ d', clookup bC cdv = some d' ∧ d' ≤ lv ∧
            cutCost g af refcnt bC = .ok bc := by
        rintro bc bC hcC
        obtain ⟨h1, h2⟩ := Prod.mk.injEq _ _ _ _ ▸ Option.some.inj hcC
        subst h1
        subst h2
        exact ⟨hPC, d, hd, hled, hc⟩
      cases best with
      | none =>
        have hstep : pickStep g lbls v cdv af refcnt none C = .ok (some (c, C)) := by
          simp [pickStep, hd, hlv, if_neg hdep, hc]
        obtain ⟨res, hres, hfacts, hsome⟩ := ih (some (c, C)) hall' hnewfacts
        refine ⟨res, ?_, hfacts, ?_⟩
        · rw [List.foldlM_cons, hstep]
          exact hres
        · intro _
          exact hsome (Or.inr (by simp))
      | some p =>
        obtain ⟨bc, bC⟩ := p
        by_cases hlt : Frac.lt c bc = true
        · have hstep : pickStep g lbls v cdv af refcnt (some (bc, bC)) C =
              .ok (some (c, C)) := by
            simp [pickStep, hd, hlv, if_neg hdep, hc, hlt]
          obtain ⟨res, hres, hfacts, hsome⟩ := ih (some (c, C)) hall' hnewfacts
          refine ⟨res, ?_, hfacts, fun _ => hsome (Or.inr (by simp))⟩
          rw [List.foldlM_cons, hstep]
          exact hres
        · have hstep : pickStep g lbls v cdv af refcnt (some (bc, bC)) C =
              .ok (some (bc, bC)) := by
            simp [pickStep, hd, hlv, if_neg hdep, hc, hlt]
          obtain ⟨res, hres, hfacts, hsome⟩ := ih (some (bc, bC)) hall' hbest
          refine ⟨res, ?_, hfacts, fun _ => hsome (Or.inr (by simp))⟩
          rw [List.foldlM_cons, hstep]
          exact hres

/-- The invariant of the area-recovery loop: area flows and chosen cuts
are keyed by the processed prefix; every processed PI gets the trivial
cut; every processed non-PI node got an admissible (depth-preserving)
cut from its enumerated cut list via the scan — never the fallback. -/
def AAcc (g : Graph) (lbls : List (Node × ℕ)) (ncuts : List (Node × List Cut))
    (cds : List (Node × List (Cut × ℕ))) (af : List (Node × Frac))
    (chosen : List (Node × Cut)) (pre : List Node) : Prop :=
  af.map Prod.fst = pre ∧ chosen.map Prod.fst = pre ∧
  ∀ v ∈ pre,
    (v ∈ PIlist g → alookup v chosen = some {v}) ∧
    (v ∉ PIlist g → ∃ C cuts ds d lv,
      alookup v chosen = some C ∧ alookup v ncuts = some cuts ∧ C ∈ cuts ∧
      alookup v cds = some ds ∧ clookup C ds = some d ∧
      alookup v lbls = some lv ∧ d ≤ lv)

theorem areaLoop_inv {g : Graph} {lbls : List (Node × ℕ)}
    {ncuts : List (Node × List Cut)} {cds : List (Node × List (Cut × ℕ))}
    {refcnt : Node → ℕ} {order : List Node}
    (hLA : LAcc g ncuts order lbls cds order) :
    ∀ {todo pre : List Node} {af : List (Node × Frac)} {chosen : List (Node × Cut)},
    order = pre ++ todo → (pre ++ todo).Nodup →
    AAcc g lbls ncuts cds af chosen pre →
    ∃ st', List.foldlM (areaStepStrict g lbls ncuts cds refcnt) (af, chosen) todo =
        .ok st' ∧
      List.foldlM (areaStep g lbls ncuts cds refcnt) (af, chosen) todo = .ok st' ∧
      AAcc g lbls ncuts cds st'.1 st'.2 order := by
  intro todo
  induction todo with
  | nil =>
    intro pre af chosen horder hnd hacc
    refine ⟨(af, chosen), rfl, rfl, ?_⟩
    simpa [horder] using hacc
  | cons v rest ih =>
    intro pre af chosen horder hnd hacc
    have hvpre : v ∉ pre := by
      have := List.disjoint_of_nodup_append hnd
      exact fun hv => this hv (List.mem_cons_self _ _)
    have hbefore : beforeIn order v = pre := beforeIn_eq horder hvpre
    have hvord : v ∈ order := by simp [horder]
    have horder' : order = (pre ++ [v]) ++ rest := by simp [horder]
    have hnd' : ((pre ++ [v]) ++ rest).Nodup := by simpa using hnd
    by_cases hpi : v ∈ PIlist g
    · have hstep : areaStepStrict g lbls ncuts cds refcnt (af, chosen) v =
          .ok (af ++ [(v, ⟨0, 1⟩)], chosen ++ [(v, {v})]) := by
        simp [areaStepStrict, hpi]
      have hstep2 : areaStep g lbls ncuts cds refcnt (af, chosen) v =
          .ok (af ++ [(v, ⟨0, 1⟩)], chosen ++ [(v, {v})]) := by
        simp [areaStep, hpi]
      have hacc' : AAcc g lbls ncuts cds (af ++ [(v, ⟨0, 1⟩)])
          (chosen ++ [(v, {v})]) (pre ++ [v]) := by
        refine ⟨by simp [hacc.1], by simp [hacc.2.1], ?_⟩
        intro w hw
        rcases List.mem_append.mp hw with hw | hw
        · obtain ⟨hwp, hwnp⟩ := hacc.2.2 w hw
          refine ⟨fun hwpi => alookup_append_some (hwp hwpi), ?_⟩
          intro hwnpi
          obtain ⟨C, cuts, ds, d, lv, h1, h2, h3, h4, h5, h6, h7⟩ := hwnp hwnpi
          exact ⟨C, cuts, ds, d, lv, alookup_append_some h1, h2, h3, h4, h5, h6, h7⟩
        · simp only [List.mem_singleton] at hw
          subst hw
          refine ⟨fun _ => alookup_append_self (hacc.2.1 ▸ hvpre), ?_⟩
          intro hwnpi
          exact absurd hpi hwnpi
      obtain ⟨st', hs1, hs2, hs3⟩ := ih horder' hnd' hacc'
      refine ⟨st', ?_, ?_, hs3⟩
      · rw [List.foldlM_cons, hstep]
        exact hs1
      · rw [List.foldlM_cons, hstep2]
        exact hs2
    · obtain ⟨cuts, ds, hnc, hcds, hds1, hdsne, hlbl, hdsall⟩ :=
        hLA.2.2.2.2 v hvord hpi
      set lv := minds (ds.map Prod.snd) with hlvdef
      have hall : ∀ C ∈ cuts, (C ∈ cuts) ∧ ∃ d, clookup C ds = some d ∧
          (d ≤ lv → ∃ c, cutCost g af refcnt C = .ok c) := by
        intro C hC
        obtain ⟨d, hd⟩ := clookup_isSome_of_mem_keys (hds1 ▸ hC)
        refine ⟨hC, d, hd, ?_⟩
        intro _
        refine cutCost_ok_of ?_
        intro x hx _
        have hxpre : x ∈ pre := by
          have := (hdsall (C, d) (clookup_mem hd)).2 x hx
          rwa [hbefore] at this
        exact alookup_isSome_of_mem_keys (hacc.1 ▸ hxpre)
      have hex : ∃ C ∈ cuts, ∃ d, clookup C ds = some d ∧ d ≤ lv := by
        have hmm := minds_mem (by simpa using hdsne : ds.map Prod.snd ≠ [])
        obtain ⟨p, hp, hp2⟩ := List.mem_map.mp hmm
        refine ⟨p.1, hds1 ▸ List.mem_map.mpr ⟨p, hp, rfl⟩, ?_⟩
        obtain ⟨d', hd'⟩ := clookup_isSome_of_mem_keys
          (List.mem_map.mpr ⟨p, hp, rfl⟩)
        refine ⟨d', hd', ?_⟩
        have he1 := (hdsall (p.1, d') (clookup_mem hd')).1
        have he2 := (hdsall p hp).1
        have : d' = p.2 := by
          rw [he2] at he1
          exact (Except.ok.inj he1).symm
        rw [this, hp2]
      obtain ⟨res, hres, hfacts, hsome⟩ := pickFold_ok (fun C => C ∈ cuts) hlbl cuts
        none hall (by simp)
      have hissome := hsome (Or.inl hex)
      cases res with
      | none => simp at hissome
      | some p =>
        obtain ⟨bc, bC⟩ := p
        obtain ⟨hbCm, d, hd, hdle, hcost⟩ := hfacts bc bC rfl
        have hpick : areaPick g lbls v ds af refcnt cuts = .ok (some (bc, bC)) := by
          simpa [areaPick] using hres
        have hstep : areaStepStrict g lbls ncuts cds refcnt (af, chosen) v =
            .ok (af ++ [(v, bc)], chosen ++ [(v, bC)]) := by
          simp only [areaStepStrict, if_neg hpi, hnc, hcds, hpick]
        have hstep2 : areaStep g lbls ncuts cds refcnt (af, chosen) v =
            .ok (af ++ [(v, bc)], chosen ++ [(v, bC)]) := by
          simp only [areaStep, if_neg hpi, hnc, hcds, hpick]
        have hacc' : AAcc g lbls ncuts cds (af ++ [(v, bc)])
            (chosen ++ [(v, bC)]) (pre ++ [v]) := by
          refine ⟨by simp [hacc.1], by simp [hacc.2.1], ?_⟩
          intro w hw
          rcases List.mem_append.mp hw with hw | hw
          · obtain ⟨hwp, hwnp⟩ := hacc.2.2 w hw
            refine ⟨fun hwpi => alookup_append_some (hwp hwpi), ?_⟩
            intro hwnpi
            obtain ⟨C, cuts', ds', d', lv', h1, h2, h3, h4, h5, h6, h7⟩ := hwnp hwnpi
            exact ⟨C, cuts', ds', d', lv', alookup_append_some h1, h2, h3, h4, h5, h6, h7⟩
          · simp only [List.mem_singleton] at hw
            subst hw
            refine ⟨fun hwpi => absurd hwpi hpi, ?_⟩
            intro _
            exact ⟨bC, cuts, ds, d, lv, alookup_append_self (hacc.2.1 ▸ hvpre),
              hnc, hbCm, hcds, hd, hlbl, hdle⟩
        obtain ⟨st', hs1, hs2, hs3⟩ := ih horder' hnd' hacc'
        refine ⟨st', ?_, ?_, hs3⟩
        · rw [List.foldlM_cons, hstep]
          exact hs1
        · rw [List.foldlM_cons, hstep2]
          exact hs2


/-! ## C2: the fallback branch of area recovery is unreachable -/

/-- C2: if the labels and per-cut depth table passed to `area_recovery`
are exactly those computed by `flowmap_labels` from the same `node_cuts`,
the run succeeds, every non-PI node is resolved by the admissible-cut
scan — the no-admissible-cut fallback branch is unreachable, as running
the fallback-free variant `area_recovery_strict` produces the same
successful result — and every chosen cut preserves depth:
`cut_depth[v][chosen_cut[v]] ≤ labels[v]`. -/
theorem C2_area_fallback_unreachable (g : Graph) (K : ℕ)
    (ncuts nc2 : List (Node × List Cut)) (lbls : List (Node × ℕ))
    (cds : List (Node × List (Cut × ℕ)))
    (hN : (g.map Prod.fst).Nodup)
    (hL : flowmap_labels g K (some ncuts) = .ok (lbls, nc2, cds)) :
    ∃ chosen af,
      area_recovery_strict g K lbls ncuts cds = .ok (chosen, af) ∧
      area_recovery g K lbls ncuts cds = .ok (chosen, af) ∧
      ∀ v ∈ g.map Prod.fst, v ∉ PIlist g →
        ∃ C ds d lv, alookup v chosen = some C ∧ alookup v cds = some ds ∧
          clookup C ds = some d ∧ alookup v lbls = some lv ∧ d ≤ lv := by
  obtain ⟨hnc2, order, ht, hnd, hsub, hcov, hLA⟩ := flowmap_ok_facts hN hL
  have hinit : AAcc g lbls ncuts cds [] [] [] := ⟨rfl, rfl, by simp⟩
  have hloop : ∀ (todo pre : List Node) (af : List (Node × Frac))
      (chosen : List (Node × Cut)),
      order = pre ++ todo → (pre ++ todo).Nodup →
      AAcc g lbls ncuts cds af chosen pre →
      ∃ st', List.foldlM (areaStepStrict g lbls ncuts cds (refcountFun g))
          (af, chosen) todo = .ok st' ∧
        List.foldlM (areaStep g lbls ncuts cds (refcountFun g)) (af, chosen) todo =
          .ok st' ∧
        AAcc g lbls ncuts cds st'.1 st'.2 order :=
    fun todo pre af chosen => areaLoop_inv hLA
  obtain ⟨st', hs1, hs2, hAcc⟩ :=
    hloop order [] [] [] (by simp) (by simpa using hnd) hinit
  refine ⟨st'.2, st'.1, ?_, ?_, ?_⟩
  · unfold area_recovery_strict
    rw [ht]
    unfold compute_refcounts
    rw [ht]
    show (match List.foldlM (areaStepStrict g lbls ncuts cds (refcountFun g))
        ([], []) order with
      | Except.error e => (Except.error e : Except MapError _)
      | Except.ok st => Except.ok (st.2, st.1)) = Except.ok (st'.2, st'.1)
    rw [hs1]
  · unfold area_recovery
    rw [ht]
    unfold compute_refcounts
    rw [ht]
    show (match List.foldlM (areaStep g lbls ncuts cds (refcountFun g))
        ([], []) order with
      | Except.error e => (Except.error e : Except MapError _)
      | Except.ok st => Except.ok (st.2, st.1)) = Except.ok (st'.2, st'.1)
    rw [hs2]
  · intro v hv hnpi
    obtain ⟨C, cuts, ds, d, lv, h1, h2, h3, h4, h5, h6, h7⟩ :=
      (hAcc.2.2 v (hcov v hv)).2 hnpi
    exact ⟨C, ds, d, lv, h1, h4, h5, h6, h7⟩

/-- The cut sets `enumerate_minimal_kcuts G9 3` computes. -/
def G9ncuts : List (Node × List Cut) :=
  [("a", [{"a"}]), ("b", [{"b"}]), ("c", [{"c"}]), ("and1", [{"a","b"}]),
   ("or1", [{"a","b","c"}, {"and1","c"}])]

/-- The labels `flowmap_labels G9 3` computes. -/
def G9lbls : List (Node × ℕ) := [("a",0),("b",0),("c",0),("and1",1),("or1",1)]

/-- The per-cut depth table `flowmap_labels G9 3` computes. -/
def G9cds : List (Node × List (Cut × ℕ)) :=
  [("a", [({"a"}, 0)]), ("b", [({"b"}, 0)]), ("c", [({"c"}, 0)]),
   ("and1", [({"a","b"}, 1)]), ("or1", [({"a","b","c"}, 1), ({"and1","c"}, 2)])]

/-- Witness for C2 on `G9` with `K = 3`. -/
theorem C2_witness :
    ∃ chosen af,
      area_recovery_strict G9 3 G9lbls G9ncuts G9cds = .ok (chosen, af) ∧
      area_recovery G9 3 G9lbls G9ncuts G9cds = .ok (chosen, af) ∧
      ∀ v ∈ G9.map Prod.fst, v ∉ PIlist G9 →
        ∃ C ds d lv, alookup v chosen = some C ∧ alookup v G9cds = some ds ∧
          clookup C ds = some d ∧ alookup v G9lbls = some lv ∧ d ≤ lv :=
  C2_area_fallback_unreachable G9 3 G9ncuts G9ncuts G9lbls G9cds
    (by decide) (by decide)


/-! ## Cover construction facts -/

theorem foldlM_inv_except {σ β : Type} (f : σ → β → Except MapError σ) (Q : σ → Prop)
    (hf : ∀ s b s', f s b = .ok s' → Q s → Q s') :
    ∀ (xs : List β) (s s' : σ), List.foldlM f s xs = .ok s' → Q s → Q s' := by
  intro xs
  induction xs with
  | nil =>
    intro s s' h hQ
    obtain rfl := Except.ok.inj h
    exact hQ
  | cons x xs ih =>
    intro s s' h hQ
    rw [List.foldlM_cons] at h
    cases hf1 : f s x with
    | error e =>
      rw [hf1] at h
      have : (Except.error e >>= fun b => List.foldlM f b xs) =
          (Except.error e : Except MapError σ) := rfl
      rw [this] at h
      exact absurd h (by simp)
    | ok s1 =>
      rw [hf1] at h
      have : (Except.ok s1 >>= fun b => List.foldlM f b xs) = List.foldlM f s1 xs := rfl
      rw [this] at h
      exact ih s1 s' h (hf s x s1 hf1 hQ)

theorem place_preserves {g : Graph} {chosen : List (Node × Cut)}
    {lbls : List (Node × ℕ)} (P : LUT → Prop)
    (hP : ∀ v C lvl, v ∉ PIlist g → alookup v chosen = some C →
        alookup v lbls = some lvl → P ⟨v, sortedNodes C, lvl⟩) :
    ∀ (fuel : ℕ) (v : Node) (st st' : List Node × List LUT),
      place g chosen lbls fuel v st = .ok st' →
      (∀ l ∈ st.2, P l) → (∀ l ∈ st'.2, P l) := by
  intro fuel
  induction fuel with
  | zero =>
    intro v st st' h
    exact absurd h (by simp [place])
  | succ fuel ih =>
    intro v st st' h hQ
    rw [show place g chosen lbls (fuel + 1) v st =
        (if v ∈ st.1 ∨ v ∈ PIlist g then .ok st
         else match alookup v chosen with
          | none => .error .keyError
          | some C =>
              match alookup v lbls with
              | none => .error .keyError
              | some lvl =>
                  (sortedNodes C).foldlM
                    (fun s u =>
                      if u ∈ PIlist g then .ok s else place g chosen lbls fuel u s)
                    (st.1 ++ [v], st.2 ++ [(⟨v, sortedNodes C, lvl⟩ : LUT)])) from rfl] at h
    by_cases hcov : v ∈ st.1 ∨ v ∈ PIlist g
    · rw [if_pos hcov] at h
      obtain rfl := Except.ok.inj h
      exact hQ
    · rw [if_neg hcov] at h
      cases hch : alookup v chosen with
      | none => rw [hch] at h; exact absurd h (by simp)
      | some C =>
        rw [hch] at h
        have h' : (match alookup v lbls with
            | none => (Except.error MapError.keyError : Except MapError _)
            | some lvl =>
                (sortedNodes C).foldlM
                  (fun s u =>
                    if u ∈ PIlist g then .ok s else place g chosen lbls fuel u s)
                  (st.1 ++ [v], st.2 ++ [(⟨v, sortedNodes C, lvl⟩ : LUT)])) = .ok st' := h
        clear h
        cases hlb : alookup v lbls with
        | none => rw [hlb] at h'; exact absurd h' (by simp)
        | some lvl =>
          rw [hlb] at h'
          have hnpi : v ∉ PIlist g := fun hp => hcov (Or.inr hp)
          refine foldlM_inv_except _ (fun st => ∀ l ∈ st.2, P l) ?_ _ _ _ h' ?_
          · intro s b s' hstep hQs
            by_cases hbpi : b ∈ PIlist g
            · rw [if_pos hbpi] at hstep
              obtain rfl := Except.ok.inj hstep
              exact hQs
            · rw [if_neg hbpi] at hstep
              exact ih b s s' hstep hQs
          · intro l hl
            rcases List.mem_append.mp hl with hl | hl
            · exact hQ l hl
            · simp only [List.mem_singleton] at hl
              subst hl
              exact hP v C lvl hnpi hch hlb

theorem build_cover_facts {g : Graph} {chosen : List (Node × Cut)}
    {lbls : List (Node × ℕ)} {outs : Option (List Node)} {luts : List LUT}
    (P : LUT → Prop)
    (hP : ∀ v C lvl, v ∉ PIlist g → alookup v chosen = some C →
        alookup v lbls = some lvl → P ⟨v, sortedNodes C, lvl⟩)
    (h : build_cover g chosen lbls outs = .ok luts) :
    ∀ l ∈ luts, P l := by
  simp only [build_cover] at h
  generalize hos : (match outs with
    | some os => os
    | none => detect_outputs g) = osl at h
  cases hf : List.foldlM (fun st po => place g chosen lbls (g.length + 1) po st)
      (([], []) : List Node × List LUT) osl with
  | error e => rw [hf] at h; exact absurd h (by simp)
  | ok st =>
    rw [hf] at h
    have hluts : luts = sortByLe lutLe st.2 := (Except.ok.inj h).symm
    have hst : ∀ l ∈ st.2, P l := by
      refine foldlM_inv_except _ (fun st => ∀ l ∈ st.2, P l) ?_ _ _ _ hf (by simp)
      intro s b s' hstep hQs
      exact place_preserves P hP _ b s s' hstep hQs
    intro l hl
    exact hst l (mem_sortByLe.mp (hluts ▸ hl))

/-! ## Pipeline facts -/

theorem pipeline_facts {g : Graph} {K : ℕ} {outs : Option (List Node)}
    {cl : Option ℕ} {lblsP : List (Node × ℕ)} {chosenP : List (Node × Cut)}
    {luts : List LUT}
    (hN : (g.map Prod.fst).Nodup)
    (h : map_with_area_optimized_flow g K outs cl = .ok (lblsP, chosenP, luts)) :
    ∃ ncuts cds order,
      enumerate_minimal_kcuts g K cl = .ok ncuts ∧
      flowmap_labels g K (some ncuts) = .ok (lblsP, ncuts, cds) ∧
      EAcc g K ncuts order ∧
      LAcc g ncuts order lblsP cds order ∧
      (∃ af, AAcc g lblsP ncuts cds af chosenP order) ∧
      build_cover g chosenP lblsP outs = .ok luts := by
  simp only [map_with_area_optimized_flow] at h
  cases he : enumerate_minimal_kcuts g K cl with
  | error e => rw [he] at h; exact absurd h (by simp)
  | ok ncuts =>
    rw [he] at h
    have h1 : (match flowmap_labels g K (some ncuts) with
        | Except.error e => (Except.error e : Except MapError _)
        | Except.ok (labels, ncuts2, cds) =>
            match area_recovery g K labels ncuts2 cds with
            | Except.error e => Except.error e
            | Except.ok (chosen, _af) =>
                match build_cover g chosen labels outs with
                | Except.error e => Except.error e
                | Except.ok luts2 => Except.ok (labels, chosen, luts2)) =
        Except.ok (lblsP, chosenP, luts) := h
    clear h
    cases hf : flowmap_labels g K (some ncuts) with
    | error e => rw [hf] at h1; exact absurd h1 (by simp)
    | ok trip =>
      obtain ⟨lbls2, nc2, cds2⟩ := trip
      rw [hf] at h1
      have h2 : (match area_recovery g K lbls2 nc2 cds2 with
          | Except.error e => (Except.error e : Except MapError _)
          | Except.ok (chosen, _af) =>
              match build_cover g chosen lbls2 outs with
              | Except.error e => Except.error e
              | Except.ok luts2 => Except.ok (lbls2, chosen, luts2)) =
          Except.ok (lblsP, chosenP, luts) := h1
      clear h1
      obtain ⟨hnc2, order, ht, hnd, hsub, hcov, hLA⟩ := flowmap_ok_facts hN hf
      subst hnc2
      obtain ⟨hK, order', ht', hnd', hsub', hcov', hEA⟩ := enumerate_ok_facts hN he
      have horder : order' = order := by
        rw [ht] at ht'
        exact (Except.ok.inj ht').symm
      subst horder
      have hinit : AAcc g lbls2 nc2 cds2 [] [] [] := ⟨rfl, rfl, by simp⟩
      have hloop : ∀ (todo pre : List Node) (af : List (Node × Frac))
          (chosen : List (Node × Cut)),
          order' = pre ++ todo → (pre ++ todo).Nodup →
          AAcc g lbls2 nc2 cds2 af chosen pre →
          ∃ st', List.foldlM (areaStepStrict g lbls2 nc2 cds2 (refcountFun g))
              (af, chosen) todo = .ok st' ∧
            List.foldlM (areaStep g lbls2 nc2 cds2 (refcountFun g)) (af, chosen) todo =
              .ok st' ∧
            AAcc g lbls2 nc2 cds2 st'.1 st'.2 order' :=
        fun todo pre af chosen => areaLoop_inv hLA
      obtain ⟨st', hs1, hs2, hAcc⟩ :=
        hloop order' [] [] [] (by simp) (by simpa using hnd) hinit
      have harea : area_recovery g K lbls2 nc2 cds2 = .ok (st'.2, st'.1) := by
        unfold area_recovery
        rw [ht]
        unfold compute_refcounts
        rw [ht]
        show (match List.foldlM (areaStep g lbls2 nc2 cds2 (refcountFun g))
            ([], []) order' with
          | Except.error e => (Except.error e : Except MapError _)
          | Except.ok st => Except.ok (st.2, st.1)) = Except.ok (st'.2, st'.1)
        rw [hs2]
      rw [harea] at h2
      have h3 : (match build_cover g st'.2 lbls2 outs with
          | Except.error e => (Except.error e : Except MapError _)
          | Except.ok luts2 => Except.ok (lbls2, st'.2, luts2)) =
          Except.ok (lblsP, chosenP, luts) := h2
      clear h2
      cases hb : build_cover g st'.2 lbls2 outs with
      | error e => rw [hb] at h3; exact absurd h3 (by simp)
      | ok luts2 =>
        rw [hb] at h3
        simp only [Except.ok.injEq, Prod.mk.injEq] at h3
        obtain ⟨hl1, hl2, hl3⟩ := h3
        subst hl1
        subst hl2
        subst hl3
        exact ⟨nc2, cds2, order', rfl, hf, hEA, hLA, ⟨st'.1, hAcc⟩, hb⟩

/-! ## C4 and C3: LUT cover invariants -/

/-- C4: for every acyclic input graph and `K ≥ 1` on which the pipeline
succeeds, every LUT in the returned cover has at most `K` inputs, for
any `cut_limit` setting. -/
theorem C4_luts_within_K (g : Graph) (K : ℕ) (outs : Option (List Node))
    (cl : Option ℕ) (lblsP : List (Node × ℕ)) (chosenP : List (Node × Cut))
    (luts : List LUT)
    (hN : (g.map Prod.fst).Nodup)
    (h : map_with_area_optimized_flow g K outs cl = .ok (lblsP, chosenP, luts)) :
    ∀ lut ∈ luts, lut.inputs.length ≤ K := by
  obtain ⟨ncuts, cds, order, he, hf, hEA, hLA, ⟨af, hAcc⟩, hb⟩ := pipeline_facts hN h
  refine build_cover_facts _ ?_ hb
  intro v C lvl hnpi hch _
  show (sortedNodes C).length ≤ K
  have hvord : v ∈ order := hAcc.2.1 ▸ mem_keys_of_alookup hch
  obtain ⟨C', cuts, ds, d, lv, h1, h2, h3, h4, h5, h6, h7⟩ :=
    (hAcc.2.2 v hvord).2 hnpi
  have hCC : C' = C := by
    rw [h1] at hch
    exact Option.some.inj hch
  rw [hCC] at h3
  have hcard := (hEA.2 (v, cuts) (alookup_mem h2) C h3).2.1
  rw [sortedNodes_length]
  exact hcard

/-- Witness for C4 at `G9`, `K = 3`. -/
theorem C4_witness :
    (⟨"or1", ["a","b","c"], 1⟩ : LUT).inputs.length ≤ 3 :=
  C4_luts_within_K G9 3 none none G9lbls
    [("a", {"a"}), ("b", {"b"}), ("c", {"c"}), ("and1", {"a","b"}),
     ("or1", {"a","b","c"})]
    [⟨"or1", ["a","b","c"], 1⟩] (by decide) (by decide)
    ⟨"or1", ["a","b","c"], 1⟩ (by decide)

/-- C3: in the LUT cover produced by the full pipeline, every LUT with
output `v` and input `u` satisfies: `u` is a primary input or
`labels[u] < labels[v]`. -/
theorem C3_lut_levels_decrease (g : Graph) (K : ℕ) (outs : Option (List Node))
    (cl : Option ℕ) (lblsP : List (Node × ℕ)) (chosenP : List (Node × Cut))
    (luts : List LUT)
    (hN : (g.map Prod.fst).Nodup)
    (h : map_with_area_optimized_flow g K outs cl = .ok (lblsP, chosenP, luts)) :
    ∀ lut ∈ luts, ∀ u ∈ lut.inputs, u ∈ PIlist g ∨
      ∃ lu lv, alookup u lblsP = some lu ∧ alookup lut.output lblsP = some lv ∧
        lu < lv := by
  obtain ⟨ncuts, cds, order, he, hf, hEA, hLA, ⟨af, hAcc⟩, hb⟩ := pipeline_facts hN h
  refine build_cover_facts _ ?_ hb
  intro v C lvl hnpi hch hlb
  intro u hu
  by_cases hupi : u ∈ PIlist g
  · exact Or.inl hupi
  · refine Or.inr ?_
    have huC : u ∈ C := mem_sortedNodes.mp hu
    have hvord : v ∈ order := hAcc.2.1 ▸ mem_keys_of_alookup hch
    obtain ⟨C', cuts, ds, d, lv, h1, h2, h3, h4, h5, h6, h7⟩ :=
      (hAcc.2.2 v hvord).2 hnpi
    have hCC : C' = C := by
      rw [h1] at hch
      exact Option.some.inj hch
    rw [hCC] at h3 h5
    obtain ⟨cuts2, ds2, g1, g2, g3, g4, g5, g6⟩ := hLA.2.2.2.2 v hvord hnpi
    have hd2 : ds2 = ds := by
      rw [g2] at h4
      exact Option.some.inj h4
    rw [hd2] at g6
    have hdepth : cutDepthOf lblsP C = .ok d := (g6 (C, d) (clookup_mem h5)).1
    obtain ⟨lu, hlu, hlud⟩ := cutDepthOf_elements hdepth u huC
    refine ⟨lu, lv, hlu, h6, ?_⟩
    omega

/-- Witness for C3 at `G9`, `K = 3`. -/
theorem C3_witness :
    "a" ∈ PIlist G9 ∨
      ∃ lu lv, alookup "a" G9lbls = some lu ∧
        alookup (⟨"or1", ["a","b","c"], 1⟩ : LUT).output G9lbls = some lv ∧
        lu < lv :=
  C3_lut_levels_decrease G9 3 none none G9lbls
    [("a", {"a"}), ("b", {"b"}), ("c", {"c"}), ("and1", {"a","b"}),
     ("or1", {"a","b","c"})]
    [⟨"or1", ["a","b","c"], 1⟩] (by decide) (by decide)
    ⟨"or1", ["a","b","c"], 1⟩ (by decide) "a" (by decide)

/-! ## The tie-break discipline of the admissible-cut scan (claim C5) -/

/-- The depth-preserving admissibility test of the `area_recovery` scan:
the cut has a recorded depth `d` with `d ≤ labels[v]` (the source skips a
cut with `if d > labels[v]: continue`). -/
def admissibleCut (labels : List (Node × ℕ)) (v : Node) (cdv : List (Cut × ℕ))
    (C : Cut) : Bool :=
  match clookup C cdv, alookup v labels with
  | some d, some lv => decide (¬ lv < d)
  | _, _ => false

/-- Invariant of the admissible-cut scan: after processing the cuts in
`done`, the running best is `none` exactly when no processed cut was
admissible; otherwise the best pair `(b, B)` splits `done` around `B`,
every admissible cut strictly before `B` costs strictly more than `b`,
and no admissible cut after `B` costs strictly less than `b`. -/
def PickInv (g : Graph) (labels : List (Node × ℕ)) (v : Node)
    (cdv : List (Cut × ℕ)) (af : List (Node × Frac)) (refcnt : Node → ℕ)
    (done : List Cut) (best : Option (Frac × Cut)) : Prop :=
  match best with
  | none => ∀ C ∈ done, admissibleCut labels v cdv C = false
  | some (b, B) => ∃ l₁ l₂, done = l₁ ++ B :: l₂ ∧
      admissibleCut labels v cdv B = true ∧ cutCost g af refcnt B = .ok b ∧
      (∀ C ∈ l₁, admissibleCut labels v cdv C = true →
        ∀ c, cutCost g af refcnt C = .ok c → Frac.lt b c = true) ∧
      (∀ C ∈ l₂, admissibleCut labels v cdv C = true →
        ∀ c, cutCost g af refcnt C = .ok c → Frac.lt c b = false)

theorem Frac.lt_trans' {a b c : Frac} (ha : 0 < a.den) (hb : 0 < b.den)
    (hc : 0 < c.den) (h1 : Frac.lt a b = true) (h2 : Frac.lt b c = true) :
    Frac.lt a c = true := by
  simp only [Frac.lt, decide_eq_true_eq] at h1 h2 ⊢
  have ha' : (0 : ℤ) < (a.den : ℤ) := Int.natCast_pos.mpr ha
  have hb' : (0 : ℤ) < (b.den : ℤ) := Int.natCast_pos.mpr hb
  have hc' : (0 : ℤ) < (c.den : ℤ) := Int.natCast_pos.mpr hc
  have key : a.num * c.den * b.den < c.num * a.den * b.den := by
    nlinarith [mul_lt_mul_of_pos_right h1 hc', mul_lt_mul_of_pos_right h2 ha']
  exact lt_of_mul_lt_mul_right key hb'.le

theorem Frac.lt_of_lt_of_nlt {a b c : Frac} (ha : 0 < a.den) (hb : 0 < b.den)
    (hc : 0 < c.den) (h1 : Frac.lt a b = true) (h2 : Frac.lt c b = false) :
    Frac.lt a c = true := by
  simp only [Frac.lt, decide_eq_true_eq] at h1 ⊢
  simp only [Frac.lt, decide_eq_false_iff_not, not_lt] at h2
  have ha' : (0 : ℤ) < (a.den : ℤ) := Int.natCast_pos.mpr ha
  have hb' : (0 : ℤ) < (b.den : ℤ) := Int.natCast_pos.mpr hb
  have hc' : (0 : ℤ) < (c.den : ℤ) := Int.natCast_pos.mpr hc
  have key : a.num * c.den * b.den < c.num * a.den * b.den := by
    nlinarith [mul_lt_mul_of_pos_right h1 hc', mul_le_mul_of_nonneg_right h2 ha'.le]
  exact lt_of_mul_lt_mul_right key hb'.le

theorem costTerms_den_pos {af : List (Node × Frac)} {refcnt : Node → ℕ}
    (hpos : ∀ p ∈ af, 0 < p.2.den) (hrc : ∀ u, 0 < refcnt u) :
    ∀ us ts, costTerms af refcnt us = some ts → ∀ t ∈ ts, 0 < t.den := by
  intro us
  induction us with
  | nil =>
    intro ts h t ht
    have h' : some ([] : List Frac) = some ts := h
    obtain rfl := Option.some.inj h'
    exact absurd ht (List.not_mem_nil t)
  | cons u us ih =>
    intro ts h t ht
    have h' : (match alookup u af, costTerms af refcnt us with
      | some a, some ts' => some (a.divNat (refcnt u) :: ts')
      | _, _ => none) = some ts := h
    cases ha : alookup u af with
    | none =>
      rw [ha] at h'
      cases hc : costTerms af refcnt us with
      | none => rw [hc] at h'; exact absurd h' (by simp)
      | some ts' => rw [hc] at h'; exact absurd h' (by simp)
    | some a =>
      rw [ha] at h'
      cases hc : costTerms af refcnt us with
      | none => rw [hc] at h'; exact absurd h' (by simp)
      | some ts' =>
        rw [hc] at h'
        obtain rfl := Option.some.inj h'
        rcases List.mem_cons.mp ht with rfl | hmem
        · have hap : 0 < a.den := hpos (u, a) (alookup_mem ha)
          exact Nat.mul_pos hap (hrc u)
        · exact ih ts' hc t hmem

theorem foldl_add_den_pos : ∀ (ts : List Frac) (acc : Frac), 0 < acc.den →
    (∀ t ∈ ts, 0 < t.den) → 0 < (ts.foldl Frac.add acc).den := by
  intro ts
  induction ts with
  | nil => intro acc hacc _; exact hacc
  | cons t ts ih =>
    intro acc hacc hts
    rw [List.foldl_cons]
    exact ih (Frac.add acc t)
      (Nat.mul_pos hacc (hts t (List.mem_cons_self t ts)))
      (fun u hu => hts u (List.mem_cons_of_mem t hu))

theorem cutCost_den_pos {g : Graph} {af : List (Node × Frac)} {refcnt : Node → ℕ}
    {C : Cut} {c : Frac} (hpos : ∀ p ∈ af, 0 < p.2.den) (hrc : ∀ u, 0 < refcnt u)
    (h : cutCost g af refcnt C = .ok c) : 0 < c.den := by
  have h' : (match costTerms af refcnt
      ((sortedNodes C).filter (fun u => decide (u ∉ PIlist g))) with
    | none => (.error .keyError : Except MapError Frac)
    | some terms => .ok (terms.foldl Frac.add ⟨1, 1⟩)) = .ok c := h
  cases hct : costTerms af refcnt
      ((sortedNodes C).filter (fun u => decide (u ∉ PIlist g))) with
  | none => rw [hct] at h'; exact absurd h' (by simp)
  | some terms =>
    rw [hct] at h'
    obtain rfl := Except.ok.inj h'
    exact foldl_add_den_pos terms ⟨1, 1⟩ Nat.one_pos
      (costTerms_den_pos hpos hrc _ terms hct)

theorem pickStep_inv {g : Graph} {labels : List (Node × ℕ)} {v : Node}
    {cdv : List (Cut × ℕ)} {af : List (Node × Frac)} {refcnt : Node → ℕ}
    {done : List Cut} {best best' : Option (Frac × Cut)} {C : Cut}
    (hpos : ∀ p ∈ af, 0 < p.2.den) (hrc : ∀ u, 0 < refcnt u)
    (hinv : PickInv g labels v cdv af refcnt done best)
    (h : pickStep g labels v cdv af refcnt best C = .ok best') :
    PickInv g labels v cdv af refcnt (done ++ [C]) best' := by
  cases best with
  | none =>
    have h' : (match clookup C cdv with
      | none => (.error .keyError : Except MapError (Option (Frac × Cut)))
      | some d =>
          match alookup v labels with
          | none => .error .keyError
          | some lv =>
              if lv < d then .ok (none : Option (Frac × Cut))
              else match cutCost g af refcnt C with
                | .error e => .error e
                | .ok cost => .ok (some (cost, C))) = .ok best' := h
    cases hcl : clookup C cdv with
    | none => rw [hcl] at h'; exact absurd h' (by simp)
    | some d =>
      rw [hcl] at h'
      have h2 : (match alookup v labels with
        | none => (.error .keyError : Except MapError (Option (Frac × Cut)))
        | some lv =>
            if lv < d then .ok (none : Option (Frac × Cut))
            else match cutCost g af refcnt C with
              | .error e => .error e
              | .ok cost => .ok (some (cost, C))) = .ok best' := h'
      cases hal : alookup v labels with
      | none => rw [hal] at h2; exact absurd h2 (by simp)
      | some lv =>
        rw [hal] at h2
        have h3 : (if lv < d then
            (.ok none : Except MapError (Option (Frac × Cut)))
          else match cutCost g af refcnt C with
            | .error e => .error e
            | .ok cost => .ok (some (cost, C))) = .ok best' := h2
        by_cases hlt : lv < d
        · rw [if_pos hlt] at h3
          obtain rfl := Except.ok.inj h3
          have hCad : admissibleCut labels v cdv C = false := by
            show (match clookup C cdv, alookup v labels with
              | some d, some lv => decide (¬ lv < d)
              | _, _ => false) = false
            rw [hcl, hal]
            simp [hlt]
          intro C' hC'
          rcases List.mem_append.mp hC' with h1 | h1
          · exact hinv C' h1
          · obtain rfl := List.mem_singleton.mp h1
            exact hCad
        · rw [if_neg hlt] at h3
          have hCad : admissibleCut labels v cdv C = true := by
            show (match clookup C cdv, alookup v labels with
              | some d, some lv => decide (¬ lv < d)
              | _, _ => false) = true
            rw [hcl, hal]
            simp [hlt]
          cases hcc : cutCost g af refcnt C with
          | error e => rw [hcc] at h3; exact absurd h3 (by simp)
          | ok cost =>
            rw [hcc] at h3
            have h4 : Except.ok (some (cost, C)) = Except.ok best' := h3
            obtain rfl := Except.ok.inj h4
            refine ⟨done, [], rfl, hCad, hcc, ?_,
              fun C' hC' => absurd hC' (List.not_mem_nil C')⟩
            intro C' hC' had c hc
            exact absurd had (by simp [hinv C' hC'])
  | some p =>
    obtain ⟨b, B⟩ := p
    obtain ⟨l₁, l₂, hsp, hB1, hB2, hl1, hl2⟩ := hinv
    have hbpos : 0 < b.den := cutCost_den_pos hpos hrc hB2
    have h' : (match clookup C cdv with
      | none => (.error .keyError : Except MapError (Option (Frac × Cut)))
      | some d =>
          match alookup v labels with
          | none => .error .keyError
          | some lv =>
              if lv < d then .ok (some (b, B))
              else match cutCost g af refcnt C with
                | .error e => .error e
                | .ok cost =>
                    if Frac.lt cost b then .ok (some (cost, C))
                    else .ok (some (b, B))) = .ok best' := h
    cases hcl : clookup C cdv with
    | none => rw [hcl] at h'; exact absurd h' (by simp)
    | some d =>
      rw [hcl] at h'
      have h2 : (match alookup v labels with
        | none => (.error .keyError : Except MapError (Option (Frac × Cut)))
        | some lv =>
            if lv < d then .ok (some (b, B))
            else match cutCost g af refcnt C with
              | .error e => .error e
              | .ok cost =>
                  if Frac.lt cost b then .ok (some (cost, C))
                  else .ok (some (b, B))) = .ok best' := h'
      cases hal : alookup v labels with
      | none => rw [hal] at h2; exact absurd h2 (by simp)
      | some lv =>
        rw [hal] at h2
        have h3 : (if lv < d then (.ok (some (b, B)) : Except MapError (Option (Frac × Cut)))
          else match cutCost g af refcnt C with
            | .error e => .error e
            | .ok cost =>
                if Frac.lt cost b then .ok (some (cost, C))
                else .ok (some (b, B))) = .ok best' := h2
        by_cases hlt : lv < d
        · rw [if_pos hlt] at h3
          obtain rfl := Except.ok.inj h3
          have hCad : admissibleCut labels v cdv C = false := by
            show (match clookup C cdv, alookup v labels with
              | some d, some lv => decide (¬ lv < d)
              | _, _ => false) = false
            rw [hcl, hal]
            simp [hlt]
          refine ⟨l₁, l₂ ++ [C], ?_, hB1, hB2, hl1, ?_⟩
          · rw [hsp]; simp
          · intro C' hC' had c hc
            rcases List.mem_append.mp hC' with h1 | h1
            · exact hl2 C' h1 had c hc
            · obtain rfl := List.mem_singleton.mp h1
              exact absurd had (by simp [hCad])
        · rw [if_neg hlt] at h3
          have hCad : admissibleCut labels v cdv C = true := by
            show (match clookup C cdv, alookup v labels with
              | some d, some lv => decide (¬ lv < d)
              | _, _ => false) = true
            rw [hcl, hal]
            simp [hlt]
          cases hcc : cutCost g af refcnt C with
          | error e => rw [hcc] at h3; exact absurd h3 (by simp)
          | ok cost =>
            rw [hcc] at h3
            have h4 : (if Frac.lt cost b then
                (.ok (some (cost, C)) : Except MapError (Option (Frac × Cut)))
              else .ok (some (b, B))) = .ok best' := h3
            have hcpos : 0 < cost.den := cutCost_den_pos hpos hrc hcc
            by_cases hblt : Frac.lt cost b = true
            · rw [if_pos hblt] at h4
              obtain rfl := Except.ok.inj h4
              refine ⟨done, [], rfl, hCad, hcc, ?_,
                fun C' hC' => absurd hC' (List.not_mem_nil C')⟩
              intro C' hC' had c hc
              have hcpos' : 0 < c.den := cutCost_den_pos hpos hrc hc
              rw [hsp] at hC'
              rcases List.mem_append.mp hC' with h1 | h1
              · exact Frac.lt_trans' hcpos hbpos hcpos' hblt (hl1 C' h1 had c hc)
              · rcases List.mem_cons.mp h1 with rfl | h1
                · obtain rfl := Except.ok.inj (hB2.symm.trans hc)
                  exact hblt
                · exact Frac.lt_of_lt_of_nlt hcpos hbpos hcpos' hblt
                    (hl2 C' h1 had c hc)
            · rw [if_neg hblt] at h4
              obtain rfl := Except.ok.inj h4
              rw [Bool.not_eq_true] at hblt
              refine ⟨l₁, l₂ ++ [C], ?_, hB1, hB2, hl1, ?_⟩
              · rw [hsp]; simp
              · intro C' hC' had c hc
                rcases List.mem_append.mp hC' with h1 | h1
                · exact hl2 C' h1 had c hc
                · obtain rfl := List.mem_singleton.mp h1
                  obtain rfl := Except.ok.inj (hcc.symm.trans hc)
                  exact hblt

theorem areaPick_loop {g : Graph} {labels : List (Node × ℕ)} {v : Node}
    {cdv : List (Cut × ℕ)} {af : List (Node × Frac)} {refcnt : Node → ℕ}
    (hpos : ∀ p ∈ af, 0 < p.2.den) (hrc : ∀ u, 0 < refcnt u) :
    ∀ (cuts done : List Cut) (best : Option (Frac × Cut)),
      PickInv g labels v cdv af refcnt done best →
      ∀ best', List.foldlM (pickStep g labels v cdv af refcnt) best cuts = .ok best' →
      PickInv g labels v cdv af refcnt (done ++ cuts) best' := by
  intro cuts
  induction cuts with
  | nil =>
    intro done best hinv best' h
    have h2 : Except.ok best = Except.ok best' := h
    obtain rfl := Except.ok.inj h2
    rw [List.append_nil]
    exact hinv
  | cons C cuts ih =>
    intro done best hinv best' h
    rw [List.foldlM_cons] at h
    cases hps : pickStep g labels v cdv af refcnt best C with
    | error e =>
      rw [hps] at h
      have he : (Except.error e >>=
          fun b => List.foldlM (pickStep g labels v cdv af refcnt) b cuts) =
          (Except.error e : Except MapError (Option (Frac × Cut))) := rfl
      rw [he] at h
      exact absurd h (by simp)
    | ok b1 =>
      rw [hps] at h
      have hb : (Except.ok b1 >>=
          fun b => List.foldlM (pickStep g labels v cdv af refcnt) b cuts) =
          List.foldlM (pickStep g labels v cdv af refcnt) b1 cuts := rfl
      rw [hb] at h
      have hstep := pickStep_inv hpos hrc hinv hps
      have hfin := ih (done ++ [C]) b1 hstep best' h
      rw [List.append_assoc] at hfin
      exact hfin

/-- C5 (amended): among the admissible cuts of `v` — those whose recorded
depth does not exceed `labels[v]` — the `area_recovery` scan returns the
first cut of the enumerated list `node_cuts[v]` attaining the minimal
area-flow cost: the winning cut `bC` is admissible with cost `bc`, every
admissible cut listed before `bC` costs strictly more than `bc`, and no
admissible cut listed after `bC` costs strictly less.  Cost ties are thus
resolved by enumeration order; there is no cardinality or lexicographic
tie-break.  (Denominator positivity holds for every area-flow table the
pipeline builds; `refcnt` is `max 1 ...` in `compute_refcounts`.) -/
theorem C5_first_cost_minimizer (g : Graph) (labels : List (Node × ℕ)) (v : Node)
    (cdv : List (Cut × ℕ)) (af : List (Node × Frac)) (refcnt : Node → ℕ)
    (cuts : List Cut) (bc : Frac) (bC : Cut)
    (hpos : ∀ p ∈ af, 0 < p.2.den) (hrc : ∀ u, 0 < refcnt u)
    (h : areaPick g labels v cdv af refcnt cuts = .ok (some (bc, bC))) :
    ∃ l₁ l₂, cuts = l₁ ++ bC :: l₂ ∧
      admissibleCut labels v cdv bC = true ∧
      cutCost g af refcnt bC = .ok bc ∧
      (∀ C ∈ l₁, admissibleCut labels v cdv C = true →
        ∀ c, cutCost g af refcnt C = .ok c → Frac.lt bc c = true) ∧
      (∀ C ∈ l₂, admissibleCut labels v cdv C = true →
        ∀ c, cutCost g af refcnt C = .ok c → Frac.lt c bc = false) := by
  have hinv0 : PickInv g labels v cdv af refcnt [] none :=
    fun C hC => absurd hC (List.not_mem_nil C)
  have h2 : List.foldlM (pickStep g labels v cdv af refcnt) none cuts =
      .ok (some (bc, bC)) := h
  have hfin := areaPick_loop hpos hrc cuts [] none hinv0 (some (bc, bC)) h2
  rw [List.nil_append] at hfin
  exact hfin

/-- Witness for C5: the theorem instantiated on node `g` of `G5x`, whose
admissible cuts `{p1,c,d}` and `{x,p2}` tie on area-flow cost; the scan
returns the first enumerated one, `{p1,c,d}`. -/
theorem C5_first_cost_minimizer_witness :
    (∀ p ∈ G5af, 0 < p.2.den) ∧ (∀ u, 0 < refcountFun G5x u) ∧
    areaPick G5x G5lbls "g" [({"p1","c","d"}, 2), ({"x","p2"}, 2)] G5af
      (refcountFun G5x) [{"p1","c","d"}, {"x","p2"}] =
      .ok (some (⟨2, 1⟩, {"p1","c","d"})) ∧
    (∃ l₁ l₂, [({"p1","c","d"} : Cut), {"x","p2"}] = l₁ ++ {"p1","c","d"} :: l₂ ∧
      admissibleCut G5lbls "g" [({"p1","c","d"}, 2), ({"x","p2"}, 2)] {"p1","c","d"} = true ∧
      cutCost G5x G5af (refcountFun G5x) {"p1","c","d"} = .ok ⟨2, 1⟩ ∧
      (∀ C ∈ l₁, admissibleCut G5lbls "g" [({"p1","c","d"}, 2), ({"x","p2"}, 2)] C = true →
        ∀ c, cutCost G5x G5af (refcountFun G5x) C = .ok c → Frac.lt ⟨2, 1⟩ c = true) ∧
      (∀ C ∈ l₂, admissibleCut G5lbls "g" [({"p1","c","d"}, 2), ({"x","p2"}, 2)] C = true →
        ∀ c, cutCost G5x G5af (refcountFun G5x) C = .ok c → Frac.lt c ⟨2, 1⟩ = false)) :=
  ⟨by decide, fun u => Nat.lt_of_lt_of_le Nat.one_pos (Nat.le_max_left 1 _),
   by decide,
   C5_first_cost_minimizer G5x G5lbls "g" [({"p1","c","d"}, 2), ({"x","p2"}, 2)]
     G5af (refcountFun G5x) [{"p1","c","d"}, {"x","p2"}] ⟨2, 1⟩ {"p1","c","d"}
     (by decide) (fun u => Nat.lt_of_lt_of_le Nat.one_pos (Nat.le_max_left 1 _))
     (by decide)⟩

end FlowMapR
